import Mathlib

/-!
libsrt `sbitset.h`: bit set with O(1) population count

Shallow embedding of `src/sbitset.h`.  A bitset is a byte vector (`srt_vector`)
plus the counter `vx.cnt`.  The vector API (`svector.h`) is an external
collaborator whose code is not part of the sources; it is modelled from the
contract table of the specification (section 6).

Machine integers: the target is a 64-bit `size_t`.  Values are `Nat`; the two
places where the counter is stepped (`cnt++`, `cnt--`) and the multiplications
by 8 in `sb_capacity` / `sb_reserve` wrap modulo `2 ^ 64` explicitly.
-/

namespace Sbitset

/-! ## The vector collaborator -/

/-- Width of `size_t` on the modelled target. -/
def SIZE_BITS : Nat := 64

/-- Number of values of `size_t`: arithmetic on `size_t` is modulo this. -/
def SIZE_MOD : Nat := 2 ^ SIZE_BITS

/-- Modelled from the spec: the allocation code behind `svector.h` is missing.
Bound on the byte capacity of a buffer on the 64-bit target, a modelling assumption:
no address space holds `2 ^ 61` bytes, so a request that would reach this size is
refused by the allocator, and `8 * capacity` is always a `size_t`. -/
def SV_MAX_BYTES : Nat := 2 ^ 61

/-- Modelled from the spec: the struct behind `srt_vector` is declared in the
missing `svector.h`.  `buf` is the raw storage (one `Nat` below 256 per byte,
its length is the byte capacity), `size` the logical occupied byte count
(`sv_size`), `vx_cnt` the field `vx.cnt` used by the bitset as bit counter. -/
structure srt_vector where
  buf : List Nat
  size : Nat
  vx_cnt : Nat
  deriving DecidableEq, Repr

/-- The typedef `typedef srt_vector srt_bitset;`.  A handle (`srt_bitset *`) is an
`Option srt_bitset`, `none` being `NULL`. -/
abbrev srt_bitset := srt_vector

/-- Modelled from the spec: answer of the memory allocator to one request, standing
for the missing allocation code.  `ok` tells whether memory is available, `slack`
how many bytes beyond the request the growth policy adds, and `junk k` is the
(arbitrary) previous content of the `k`-th byte of the fresh region. -/
structure sv_mem where
  ok : Bool
  slack : Nat
  junk : Nat → Nat

/-- Modelled from the spec: the allocation code is missing.  The fresh region handed
out by the allocator: `n` bytes of arbitrary content (nothing is zero-filled). -/
def sv_fresh (m : sv_mem) (n : Nat) : List Nat :=
  (List.range n).map (fun k => m.junk k % 256)

/-- Modelled from the spec: the allocation code is missing.  The allocator grants a
buffer of (at least) `n` bytes: memory is available and the size is within the bound. -/
def sv_grants (m : sv_mem) (n : Nat) : Prop :=
  m.ok = true ∧ n + m.slack < SV_MAX_BYTES

instance (m : sv_mem) (n : Nat) : Decidable (sv_grants m n) := by
  unfold sv_grants; infer_instance

/-- Modelled from the spec: `sv_alloc(elem_size, capacity, NULL)` of the missing
`svector.h`: "returns owned growable byte buffer", empty (size 0, counter 0), not
zero-filled; `NULL` when memory cannot be obtained. -/
def sv_alloc (m : sv_mem) (elem_size : Nat) (initial_reserve : Nat) : Option srt_vector :=
  if sv_grants m (elem_size * initial_reserve) then
    some { buf := sv_fresh m (elem_size * initial_reserve + m.slack), size := 0, vx_cnt := 0 }
  else none

/-- Modelled from the spec: `sv_size` of the missing `svector.h`, the "logical
occupied byte count". -/
def sv_size (v : srt_vector) : Nat := v.size

/-- Modelled from the spec: `sv_set_size` of the missing `svector.h`, sets the
logical occupied byte count. -/
def sv_set_size (v : srt_vector) (n : Nat) : srt_vector := { v with size := n }

/-- Modelled from the spec: `sv_capacity` of the missing `svector.h`, "total
reserved bytes"; 0 for a null handle. -/
def sv_capacity (b : Option srt_vector) : Nat :=
  match b with
  | none => 0
  | some v => v.buf.length

/-- Modelled from the spec: `sv_get_buffer` / `sv_get_buffer_r` of the missing
`svector.h`, raw byte access. -/
def sv_get_buffer (v : srt_vector) : List Nat := v.buf

/-- Modelled from the spec: `sv_reserve` of the missing `svector.h`: "grow capacity
to at least n bytes, may relocate; returns achieved capacity".  Nothing happens
when the capacity already suffices; on growth the old bytes are kept and the new
ones hold arbitrary content; on failure the vector is left as it was. -/
def sv_reserve (m : sv_mem) (v : srt_vector) (n : Nat) : srt_vector × Nat :=
  if n ≤ v.buf.length then (v, v.buf.length)
  else if sv_grants m n then
    ({ v with buf := v.buf ++ sv_fresh m (n + m.slack - v.buf.length) }, n + m.slack)
  else (v, v.buf.length)

/-- Modelled from the spec: `sv_shrink` of the missing `svector.h`: "release unused
reserved capacity", down to what the logical size needs. -/
def sv_shrink (v : srt_vector) : srt_vector := { v with buf := v.buf.take v.size }

/-- The libc `memset(buf + off, c, n)` on the byte list. -/
def memset (buf : List Nat) (off c : Nat) : Nat → List Nat
  | 0 => buf
  | n + 1 => memset (buf.set off c) (off + 1) c n

/-! ## `sbitset.h` -/

/-- The macro `SB_BITS2BYTES(n)`, `(1 + n / 8)`, for an argument that is a single token
or a parenthesised expression of value `n`, as in the one call of the sources,
`sb_alloc(nth)`.  The parameter is not parenthesised in the macro: for other argument
texts see `SB_BITS2BYTES_expand`. -/
def SB_BITS2BYTES (n : Nat) : Nat := 1 + n / 8

/-- The macro `sb_alloc(n)`, `sv_alloc(1, SB_BITS2BYTES(n), NULL)`, for an argument that
is a single token or a parenthesised expression of value `n`. -/
def sb_alloc (m : sv_mem) (n : Nat) : Option srt_bitset := sv_alloc m 1 (SB_BITS2BYTES n)

/-- The function `sb_clear`. -/
def sb_clear (b : Option srt_bitset) : Option srt_bitset :=
  match b with
  | none => none
  | some v => some { sv_set_size v 0 with vx_cnt := 0 }

/-- The function `sb_popcount`. -/
def sb_popcount (b : Option srt_bitset) : Nat :=
  match b with
  | none => 0
  | some v => v.vx_cnt

/-- The function `sb_test`. -/
def sb_test (b : Option srt_bitset) (nth : Nat) : Nat :=
  match b with
  | none => 0
  | some v =>
    let pos := nth / 8
    let mask := 1 <<< (nth % 8)
    if pos ≥ sv_size v then 0
    else if (sv_get_buffer v).getD pos 0 &&& mask ≠ 0 then 1 else 0

/-- Lines 131-134 of `sb_set`: set the bit (the result is stored back into a `uint8_t`)
and count it when it was 0. -/
def sb_set_bit (v : srt_bitset) (pos mask : Nat) : srt_bitset :=
  let buf := sv_get_buffer v
  if buf.getD pos 0 &&& mask = 0 then
    { v with buf := buf.set pos ((buf.getD pos 0 ||| mask) % 256), vx_cnt := (v.vx_cnt + 1) % SIZE_MOD }
  else v

/-- The function `sb_set`, as a function from the handle `*b` before the call to the
handle after it (`b` itself non-null; with `b == NULL` the function does nothing). -/
def sb_set (m : sv_mem) (b : Option srt_bitset) (nth : Nat) : Option srt_bitset :=
  let pos := nth / 8
  let mask := 1 <<< (nth % 8)
  let pinc := pos + 1
  match (match b with
         | none => sb_alloc m nth
         | some v => some v) with
  | none => none
  | some v =>
    if pinc > sv_size v then
      match sv_reserve m v pinc with
      | (v1, got) =>
        if got < pinc then some v1
        else
          let ss := sv_size v1
          let zeroed := memset (sv_get_buffer v1) ss 0 (pinc - ss)
          some (sb_set_bit (sv_set_size { v1 with buf := zeroed } pinc) pos mask)
    else some (sb_set_bit v pos mask)

/-- The function `sb_reset`; `~mask` is the complement on `size_t` and the result is
stored back into a `uint8_t`. -/
def sb_reset (b : Option srt_bitset) (nth : Nat) : Option srt_bitset :=
  match b with
  | none => none
  | some v =>
    let pos := nth / 8
    if pos < sv_size v then
      let buf := sv_get_buffer v
      let mask := 1 <<< (nth % 8)
      if buf.getD pos 0 &&& mask ≠ 0 then
        some { v with
          buf := buf.set pos ((buf.getD pos 0 &&& (SIZE_MOD - 1 - mask)) % 256),
          vx_cnt := (v.vx_cnt + SIZE_MOD - 1) % SIZE_MOD }
      else some v
    else some v

/-- The function `sb_eval`. -/
def sb_eval (m : sv_mem) (b : Option srt_bitset) (nth : Nat) : Option srt_bitset :=
  let prev := sb_test b nth
  let b1 := sb_set m b nth
  if prev = 0 then sb_reset b1 nth else b1

/-- The function `sb_capacity`. -/
def sb_capacity (b : Option srt_bitset) : Nat := (8 * sv_capacity b) % SIZE_MOD

/-- The function `sb_reserve`: the handle after the call and the returned number of
bits.  What the missing `sv_reserve` does on a null handle is not in the sources; it is
modelled as leaving the handle null and returning 0, the capacity of a null handle. -/
def sb_reserve (m : sv_mem) (b : Option srt_bitset) (max_elems : Nat) : Option srt_bitset × Nat :=
  match b with
  | none => (none, 0)
  | some v =>
    match sv_reserve m v (1 + max_elems / 8) with
    | (v1, got) => (some v1, (got * 8) % SIZE_MOD)

/-- The function `sb_shrink`. -/
def sb_shrink (b : Option srt_bitset) : Option srt_bitset :=
  match b with
  | none => none
  | some v =>
    if sb_popcount (some v) = 0 then some (sv_shrink (sv_set_size v 0))
    else some (sv_shrink v)

/-- The logical size in bytes of a handle (0 for null). -/
def size_bytes (b : Option srt_bitset) : Nat :=
  match b with
  | none => 0
  | some v => sv_size v

/-! ## Invariants -/

/-- Representation invariant of the vector: the logical size is within the
capacity, the capacity is below the bound of the allocator, the counter is a `size_t`. -/
def WF (b : Option srt_bitset) : Prop :=
  match b with
  | none => True
  | some v => v.size ≤ v.buf.length ∧ v.buf.length < SV_MAX_BYTES ∧ v.vx_cnt < SIZE_MOD

instance (b : Option srt_bitset) : Decidable (WF b) := by
  unfold WF; cases b <;> infer_instance

/-- Number of indices `i` in `[0, 8 * size_bytes)` with `test(b, i) == 1`. -/
def bitcount (b : Option srt_bitset) : Nat :=
  ((List.range (8 * size_bytes b)).filter (fun i => sb_test b i = 1)).length

/-- Invariant I1: the counter equals the number of set bits. -/
def I1 (b : Option srt_bitset) : Prop := sb_popcount b = bitcount b

instance (b : Option srt_bitset) : Decidable (I1 b) := by
  unfold I1; infer_instance

/-- An allocator that grants every request exactly, over memory full of `0xff`. -/
def mem_ff : sv_mem := { ok := true, slack := 0, junk := fun _ => 255 }

/-- An allocator with no memory left. -/
def mem_none : sv_mem := { ok := false, slack := 0, junk := fun _ => 0 }

/-- The vector reached at line 131 of `sb_set` (before the bit itself is examined):
`v` when byte `nth / 8` is already materialized, else `v` after `sv_reserve`,
`memset` and `sv_set_size`. -/
def sb_set_prep (m : sv_mem) (v : srt_bitset) (nth : Nat) : srt_bitset :=
  if nth / 8 + 1 > sv_size v then
    let v1 := (sv_reserve m v (nth / 8 + 1)).1
    sv_set_size { v1 with buf := memset (sv_get_buffer v1) (sv_size v1) 0 (nth / 8 + 1 - sv_size v1) }
      (nth / 8 + 1)
  else v

/-- No allocation fails during `sb_set(b, nth)`: the `nth / 8 + 1` bytes are already
reserved, or the allocator grants them. -/
def sb_set_ok (m : sv_mem) (b : Option srt_bitset) (nth : Nat) : Prop :=
  nth / 8 + 1 ≤ sv_capacity b ∨ sv_grants m (nth / 8 + 1)

instance (m : sv_mem) (b : Option srt_bitset) (nth : Nat) : Decidable (sb_set_ok m b nth) := by
  unfold sb_set_ok; infer_instance

/-- The set of indices that test as 1, all of them below `8 * size_bytes b`. -/
def bits (b : Option srt_bitset) : Finset Nat :=
  (Finset.range (8 * size_bytes b)).filter (fun i => sb_test b i = 1)

/-- A valid bitset: the vector is well formed and the counter obeys I1. -/
def Inv (b : Option srt_bitset) : Prop := WF b ∧ I1 b

instance (b : Option srt_bitset) : Decidable (Inv b) := by
  unfold Inv; infer_instance

/-- The scenario of the specification: bits 3, 5 and 100 set on a fresh bitset. -/
def scenario : Option srt_bitset :=
  sb_set mem_ff (sb_set mem_ff (sb_set mem_ff (sb_alloc mem_ff 0) 3) 5) 100

/-- A one-byte bitset in a two-byte buffer whose second byte is stale. -/
def stale : srt_bitset := { buf := [255, 255], size := 1, vx_cnt := 8 }

/-! ## Further parts of the interface and the vocabulary of the later claims -/

/-- Modelled from the spec: `sv_alloca` of the missing `svector.h`, "same" as `sv_alloc`
but "arena/stack-backed": the same empty buffer of the requested capacity. -/
def sv_alloca (m : sv_mem) (elem_size : Nat) (initial_reserve : Nat) : Option srt_vector :=
  sv_alloc m elem_size initial_reserve

/-- The macro `sb_alloca(n)`, `sv_alloca(1, SB_BITS2BYTES(n), NULL)`, for an argument
that is a single token or a parenthesised expression of value `n`. -/
def sb_alloca (m : sv_mem) (n : Nat) : Option srt_bitset := sv_alloca m 1 (SB_BITS2BYTES n)

/-- The byte count for `n` bits in the words of the specification, `ceil(n / 8)`. -/
def spec_ceil_bytes (n : Nat) : Nat := (n + 7) / 8

/-- The byte count that `sb_reserve` passes to `sv_reserve`, `1 + max_elems / 8`. -/
def sb_reserve_bytes (max_elems : Nat) : Nat := 1 + max_elems / 8

/-- No allocation fails during `sb_reserve(b, max_elems)`: the bytes it asks of
`sv_reserve` are already reserved, or the allocator grants them. -/
def sb_reserve_ok (m : sv_mem) (b : Option srt_bitset) (max_elems : Nat) : Prop :=
  sb_reserve_bytes max_elems ≤ sv_capacity b ∨ sv_grants m (sb_reserve_bytes max_elems)

instance (m : sv_mem) (b : Option srt_bitset) (max_elems : Nat) :
    Decidable (sb_reserve_ok m b max_elems) := by
  unfold sb_reserve_ok; infer_instance

/-- The text of the argument of a call of `SB_BITS2BYTES`, `sb_alloc` or `sb_alloca`, as
far as the expansion depends on it (the parameter `n` is not parenthesised in
`(1 + n / 8)`): a single token or parenthesised expression of value `n`, or two such
operands of type `size_t` joined by `+`, `*` or `&`. -/
inductive sb_arg where
  | atom (n : Nat)
  | add (a b : Nat)
  | mul (a b : Nat)
  | band (a b : Nat)

/-- The value of the argument expression, on `size_t`. -/
def sb_arg.val : sb_arg → Nat
  | sb_arg.atom n => n
  | sb_arg.add a b => (a + b) % SIZE_MOD
  | sb_arg.mul a b => (a * b) % SIZE_MOD
  | sb_arg.band a b => a &&& b

/-- The expansion of `SB_BITS2BYTES(arg)`: the text `(1 + arg / 8)` read with the
precedences of C, that is `1 + n / 8`, `1 + a + b / 8`, `1 + a * b / 8` and
`1 + a & b / 8` (which is `(1 + a) & (b / 8)`), on `size_t`. -/
def SB_BITS2BYTES_expand : sb_arg → Nat
  | sb_arg.atom n => SB_BITS2BYTES n
  | sb_arg.add a b => (1 + a + b / 8) % SIZE_MOD
  | sb_arg.mul a b => (1 + (a * b) % SIZE_MOD / 8) % SIZE_MOD
  | sb_arg.band a b => ((1 + a) % SIZE_MOD) &&& (b / 8)

/-- One call of the mutating interface, with the answer of the allocator where the
call may allocate. -/
inductive sb_op where
  | set (m : sv_mem) (nth : Nat)
  | reset (nth : Nat)
  | clear
  | eval (m : sv_mem) (nth : Nat)
  | reserve (m : sv_mem) (max_elems : Nat)
  | shrink

/-- The handle after one call. -/
def sb_step (b : Option srt_bitset) : sb_op → Option srt_bitset
  | sb_op.set m nth => sb_set m b nth
  | sb_op.reset nth => sb_reset b nth
  | sb_op.clear => sb_clear b
  | sb_op.eval m nth => sb_eval m b nth
  | sb_op.reserve m max_elems => (sb_reserve m b max_elems).1
  | sb_op.shrink => sb_shrink b

/-- The handle after a finite sequence of calls. -/
def sb_run (b : Option srt_bitset) (ops : List sb_op) : Option srt_bitset :=
  ops.foldl sb_step b

/-- The finite set of naturals that the bitset stands for, updated as the refinement
claim words it: insert on set, erase on reset, emptied on clear, unchanged by eval,
reserve and shrink. -/
def spec_set_step (S : Finset Nat) : sb_op → Finset Nat
  | sb_op.set _ nth => insert nth S
  | sb_op.reset nth => S.erase nth
  | sb_op.clear => ∅
  | sb_op.eval _ _ => S
  | sb_op.reserve _ _ => S
  | sb_op.shrink => S

/-- The abstract set after a finite sequence of calls. -/
def spec_set_run (S : Finset Nat) (ops : List sb_op) : Finset Nat :=
  ops.foldl spec_set_step S

/-- No allocation fails in a call that sets a bit (`sb_eval` and `sb_reserve` keep the
content whether or not their allocation succeeds, nothing is asked of them). -/
def sb_op_ok (b : Option srt_bitset) : sb_op → Prop
  | sb_op.set m nth => sb_set_ok m b nth
  | _ => True

/-- No allocation fails along a sequence of calls started at `b`. -/
def sb_run_ok (b : Option srt_bitset) : List sb_op → Prop
  | [] => True
  | op :: ops => sb_op_ok b op ∧ sb_run_ok (sb_step b op) ops

/-- The guard under which `sb_reset` executes the decrement `cnt--` (lines 142-147):
the handle is not null, byte `nth / 8` is materialized and the bit is set. -/
def sb_reset_decrements (b : Option srt_bitset) (nth : Nat) : Prop :=
  match b with
  | none => False
  | some v => nth / 8 < sv_size v ∧ (sv_get_buffer v).getD (nth / 8) 0 &&& (1 <<< (nth % 8)) ≠ 0

instance (b : Option srt_bitset) (nth : Nat) : Decidable (sb_reset_decrements b nth) := by
  unfold sb_reset_decrements; cases b <;> infer_instance

/-- The bitset with bit 3 set and reset again: one materialized byte, no bit set. -/
def emptied : Option srt_bitset := sb_reset (sb_set mem_ff (sb_alloc mem_ff 0) 3) 3

/-- The allocation of `sb_set(b, nth)` fails: for a null handle `sb_alloc` returns
null, for an existing bitset `sv_reserve` returns less than `nth / 8 + 1` bytes. -/
def sb_set_fails (m : sv_mem) (b : Option srt_bitset) (nth : Nat) : Prop :=
  match b with
  | none => sb_alloc m nth = none
  | some v => (sv_reserve m v (nth / 8 + 1)).2 < nth / 8 + 1

instance (m : sv_mem) (b : Option srt_bitset) (nth : Nat) : Decidable (sb_set_fails m b nth) := by
  unfold sb_set_fails; cases b <;> infer_instance

instance (b : Option srt_bitset) (op : sb_op) : Decidable (sb_op_ok b op) := by
  cases op <;> unfold sb_op_ok <;> infer_instance

/-- Decision procedure for `sb_run_ok`, call by call. -/
def sb_run_ok_dec : (ops : List sb_op) → (b : Option srt_bitset) → Decidable (sb_run_ok b ops)
  | [], _ => isTrue trivial
  | op :: ops, b =>
    if h1 : sb_op_ok b op then
      match sb_run_ok_dec ops (sb_step b op) with
      | isTrue h2 => isTrue ⟨h1, h2⟩
      | isFalse h2 => isFalse (fun h => h2 h.2)
    else isFalse (fun h => h1 h.1)

instance (b : Option srt_bitset) (ops : List sb_op) : Decidable (sb_run_ok b ops) :=
  sb_run_ok_dec ops b

/-- The states reachable from a fresh bitset by a finite sequence of calls. -/
def Reachable (b : Option srt_bitset) : Prop :=
  ∃ m n ops, b = sb_run (sb_alloc m n) ops

/-- The calls of the scenario followed by a reset of bit 5 and a shrink. -/
def scenario_ops : List sb_op :=
  [sb_op.set mem_ff 3, sb_op.set mem_ff 5, sb_op.set mem_ff 100, sb_op.reset 5, sb_op.shrink]

/-! ## Bounds-checked execution

The same functions with every access to the byte buffer checked against its length:
an access outside the buffer yields `none` (the undefined behaviour of C), and each
function also returns the list of the accesses it made. -/

/-- One access to the byte buffer: a read, a write, or a byte zero-filled by `memset`. -/
inductive sb_access where
  | rd (off : Nat)
  | wr (off : Nat)
  | zero (off : Nat)
  deriving DecidableEq, Repr

/-- The offset of an access. -/
def sb_access.off : sb_access → Nat
  | sb_access.rd p => p
  | sb_access.wr p => p
  | sb_access.zero p => p

/-- Checked read `buf[pos]`. -/
def buf_rd (buf : List Nat) (pos : Nat) : Option Nat := buf[pos]?

/-- Checked write `buf[pos] = x`. -/
def buf_wr (buf : List Nat) (pos x : Nat) : Option (List Nat) :=
  if pos < buf.length then some (buf.set pos x) else none

/-- Checked `memset(buf + off, c, n)`, with the offsets it fills. -/
def memset_chk (buf : List Nat) (off c : Nat) : Nat → Option (List Nat × List sb_access)
  | 0 => some (buf, [])
  | n + 1 =>
    match buf_wr buf off c with
    | none => none
    | some buf1 =>
      match memset_chk buf1 (off + 1) c n with
      | none => none
      | some (buf2, tr) => some (buf2, sb_access.zero off :: tr)

/-- The function `sb_test` with checked accesses. -/
def sb_test_chk (b : Option srt_bitset) (nth : Nat) : Option (Nat × List sb_access) :=
  match b with
  | none => some (0, [])
  | some v =>
    let pos := nth / 8
    let mask := 1 <<< (nth % 8)
    if pos ≥ sv_size v then some (0, [])
    else
      match buf_rd (sv_get_buffer v) pos with
      | none => none
      | some x => some (if x &&& mask ≠ 0 then 1 else 0, [sb_access.rd pos])

/-- Lines 131-134 of `sb_set` with checked accesses. -/
def sb_set_bit_chk (v : srt_bitset) (pos mask : Nat) : Option (srt_bitset × List sb_access) :=
  let buf := sv_get_buffer v
  match buf_rd buf pos with
  | none => none
  | some x =>
    if x &&& mask = 0 then
      match buf_wr buf pos ((x ||| mask) % 256) with
      | none => none
      | some buf1 =>
        some ({ v with buf := buf1, vx_cnt := (v.vx_cnt + 1) % SIZE_MOD },
          [sb_access.rd pos, sb_access.wr pos])
    else some (v, [sb_access.rd pos])

/-- The function `sb_set` with checked accesses. -/
def sb_set_chk (m : sv_mem) (b : Option srt_bitset) (nth : Nat) :
    Option (Option srt_bitset × List sb_access) :=
  let pos := nth / 8
  let mask := 1 <<< (nth % 8)
  let pinc := pos + 1
  match (match b with
         | none => sb_alloc m nth
         | some v => some v) with
  | none => some (none, [])
  | some v =>
    if pinc > sv_size v then
      match sv_reserve m v pinc with
      | (v1, got) =>
        if got < pinc then some (some v1, [])
        else
          let ss := sv_size v1
          match memset_chk (sv_get_buffer v1) ss 0 (pinc - ss) with
          | none => none
          | some (zeroed, tr0) =>
            match sb_set_bit_chk (sv_set_size { v1 with buf := zeroed } pinc) pos mask with
            | none => none
            | some (v2, tr) => some (some v2, tr0 ++ tr)
    else
      match sb_set_bit_chk v pos mask with
      | none => none
      | some (v2, tr) => some (some v2, tr)

/-- The function `sb_reset` with checked accesses. -/
def sb_reset_chk (b : Option srt_bitset) (nth : Nat) :
    Option (Option srt_bitset × List sb_access) :=
  match b with
  | none => some (none, [])
  | some v =>
    let pos := nth / 8
    if pos < sv_size v then
      let buf := sv_get_buffer v
      let mask := 1 <<< (nth % 8)
      match buf_rd buf pos with
      | none => none
      | some x =>
        if x &&& mask ≠ 0 then
          match buf_wr buf pos ((x &&& (SIZE_MOD - 1 - mask)) % 256) with
          | none => none
          | some buf1 =>
            some (some { v with buf := buf1, vx_cnt := (v.vx_cnt + SIZE_MOD - 1) % SIZE_MOD },
              [sb_access.rd pos, sb_access.wr pos])
        else some (some v, [sb_access.rd pos])
    else some (some v, [])

/-- What the claim on bounds allows an access of `sb_set(b, nth)` to be: a zero-fill
within `[old_size, nth / 8 + 1)`, or a read or write of byte `nth / 8`. -/
def sb_set_access_ok (old_size nth : Nat) : sb_access → Prop
  | sb_access.zero p => old_size ≤ p ∧ p < nth / 8 + 1
  | sb_access.rd p => p = nth / 8
  | sb_access.wr p => p = nth / 8

instance (old_size nth : Nat) (a : sb_access) : Decidable (sb_set_access_ok old_size nth a) := by
  cases a <;> unfold sb_set_access_ok <;> infer_instance

/-! ## Bit-level and buffer lemmas -/

theorem land_two_pow_eq_zero_iff (x k : Nat) : x &&& 2 ^ k = 0 ↔ x.testBit k = false := by
  constructor
  · intro h
    have := Nat.testBit_and x (2 ^ k) k
    rw [h] at this
    simpa [Nat.testBit_two_pow_self] using this.symm
  · intro h
    apply Nat.eq_of_testBit_eq
    intro j
    rw [Nat.testBit_and, Nat.testBit_two_pow]
    by_cases hj : k = j
    · subst hj; simp [h]
    · simp [hj]

theorem testBit_lor_two_pow (x k j : Nat) (hj : j < 8) :
    ((x ||| 2 ^ k) % 256).testBit j = (x.testBit j || decide (k = j)) := by
  have h256 : (256 : Nat) = 2 ^ 8 := by norm_num
  rw [h256, Nat.testBit_mod_two_pow, Nat.testBit_or, Nat.testBit_two_pow]
  simp [hj]

theorem testBit_clear_mask (x k j : Nat) (hk : k < 8) (hj : j < 8) :
    ((x &&& (SIZE_MOD - 1 - 2 ^ k)) % 256).testBit j = (x.testBit j && !decide (k = j)) := by
  have h256 : (256 : Nat) = 2 ^ 8 := by norm_num
  have hlt : 2 ^ k < 2 ^ 64 := Nat.pow_lt_pow_right (by norm_num) (by omega)
  have hm : SIZE_MOD - 1 - 2 ^ k = 2 ^ 64 - (2 ^ k + 1) := by
    simp only [SIZE_MOD, SIZE_BITS]; omega
  rw [h256, Nat.testBit_mod_two_pow, Nat.testBit_and, hm, Nat.testBit_two_pow_sub_succ hlt,
    Nat.testBit_two_pow]
  have : j < 64 := by omega
  simp [hj, this]

theorem getD_memset (n : Nat) : ∀ (buf : List Nat) (off c p : Nat),
    (memset buf off c n).getD p 0 =
      if off ≤ p ∧ p < off + n ∧ p < buf.length then c else buf.getD p 0 := by
  induction n with
  | zero =>
    intro buf off c p
    have : ¬ (off ≤ p ∧ p < off + 0 ∧ p < buf.length) := by omega
    rw [if_neg this]; rfl
  | succ n ih =>
    intro buf off c p
    rw [memset, ih]
    simp only [List.length_set]
    by_cases h1 : off + 1 ≤ p ∧ p < off + 1 + n ∧ p < buf.length
    · rw [if_pos h1, if_pos (by omega)]
    · rw [if_neg h1]
      by_cases h2 : p = off
      · subst h2
        by_cases h3 : p < buf.length
        · rw [if_pos (by omega)]
          simp [List.getD_eq_getElem?_getD, List.getElem?_set, h3]
        · rw [if_neg (by omega)]
          have h4 : buf.length ≤ p := by omega
          simp [List.getD_eq_getElem?_getD, List.getElem?_set, h3, List.getElem?_eq_none h4]
      · rw [if_neg (by omega)]
        have h5 : ¬ off = p := fun h => h2 h.symm
        simp [List.getD_eq_getElem?_getD, List.getElem?_set, h5]

theorem length_memset (n : Nat) : ∀ (buf : List Nat) (off c : Nat),
    (memset buf off c n).length = buf.length := by
  induction n with
  | zero => intro buf off c; rfl
  | succ n ih => intro buf off c; rw [memset, ih, List.length_set]

theorem sb_test_some (v : srt_bitset) (j : Nat) :
    sb_test (some v) j =
      if j / 8 < v.size ∧ (v.buf.getD (j / 8) 0).testBit (j % 8) = true then 1 else 0 := by
  simp only [sb_test, sv_size, sv_get_buffer, Nat.one_shiftLeft, ge_iff_le]
  by_cases h : v.size ≤ j / 8
  · rw [if_pos h, if_neg (by omega)]
  · rw [if_neg h]
    by_cases hb : (v.buf.getD (j / 8) 0).testBit (j % 8) = true
    · rw [if_pos, if_pos ⟨by omega, hb⟩]
      intro h0
      rw [land_two_pow_eq_zero_iff, hb] at h0
      exact Bool.noConfusion h0
    · rw [if_neg, if_neg (fun h => hb h.2)]
      simp only [ne_eq, Decidable.not_not]
      rw [land_two_pow_eq_zero_iff]
      simpa using hb

theorem sb_test_le_one (b : Option srt_bitset) (j : Nat) : sb_test b j ≤ 1 := by
  cases b with
  | none => simp [sb_test]
  | some v => rw [sb_test_some]; split <;> omega

theorem sb_test_eq_one_lt (b : Option srt_bitset) (j : Nat) (h : sb_test b j = 1) :
    j < 8 * size_bytes b := by
  cases b with
  | none => simp [sb_test] at h
  | some v =>
    rw [sb_test_some] at h
    by_cases hc : j / 8 < v.size ∧ (v.buf.getD (j / 8) 0).testBit (j % 8) = true
    · simp only [size_bytes, sv_size]; omega
    · rw [if_neg hc] at h; omega

theorem getD_set (buf : List Nat) (pos x p : Nat) :
    (buf.set pos x).getD p 0 = if p = pos ∧ pos < buf.length then x else buf.getD p 0 := by
  by_cases h : p = pos
  · subst h
    by_cases hl : p < buf.length
    · simp [List.getD_eq_getElem?_getD, List.getElem?_set, hl]
    · have h4 : buf.length ≤ p := by omega
      simp [List.getD_eq_getElem?_getD, List.getElem?_set, hl, List.getElem?_eq_none h4]
  · have h5 : ¬ pos = p := fun e => h e.symm
    simp [List.getD_eq_getElem?_getD, List.getElem?_set, h, h5]

theorem index_eq_iff (i j : Nat) : j = i ↔ j / 8 = i / 8 ∧ j % 8 = i % 8 := by omega

theorem sb_set_bit_size (v : srt_bitset) (pos mask : Nat) :
    (sb_set_bit v pos mask).size = v.size := by
  unfold sb_set_bit; dsimp only; split <;> rfl

theorem sb_set_bit_length (v : srt_bitset) (pos mask : Nat) :
    (sb_set_bit v pos mask).buf.length = v.buf.length := by
  unfold sb_set_bit; dsimp only; split
  · simp [sv_get_buffer]
  · rfl

theorem sb_test_set_bit (v : srt_bitset) (i j : Nat) (h1 : i / 8 < v.size)
    (h2 : v.size ≤ v.buf.length) :
    sb_test (some (sb_set_bit v (i / 8) (1 <<< (i % 8)))) j =
      if j = i then 1 else sb_test (some v) j := by
  have hpos : i / 8 < v.buf.length := by omega
  have h8 : j % 8 < 8 := Nat.mod_lt _ (by norm_num)
  unfold sb_set_bit
  simp only [sv_get_buffer, Nat.one_shiftLeft]
  by_cases hz : v.buf.getD (i / 8) 0 &&& 2 ^ (i % 8) = 0
  · rw [if_pos hz, sb_test_some, sb_test_some]
    by_cases hq : j / 8 = i / 8
    · have hget : (List.set v.buf (i / 8)
          ((v.buf.getD (i / 8) 0 ||| 2 ^ (i % 8)) % 256)).getD (j / 8) 0 =
          (v.buf.getD (i / 8) 0 ||| 2 ^ (i % 8)) % 256 := by
        rw [getD_set, if_pos ⟨hq, hpos⟩]
      simp only [hget, testBit_lor_two_pow _ _ _ h8]
      by_cases hji : j = i
      · subst hji
        simp [h1]
      · have hr : ¬ i % 8 = j % 8 := by omega
        rw [if_neg hji]
        simp only [hq, hr, decide_False, Bool.or_false]
    · have hget : (List.set v.buf (i / 8)
          ((v.buf.getD (i / 8) 0 ||| 2 ^ (i % 8)) % 256)).getD (j / 8) 0 =
          v.buf.getD (j / 8) 0 := by
        rw [getD_set, if_neg (fun h => hq h.1)]
      have hji : ¬ j = i := fun h => hq (by rw [h])
      simp only [hget]
      rw [if_neg hji]
  · rw [if_neg hz]
    by_cases hji : j = i
    · subst hji
      rw [if_pos rfl, sb_test_some]
      rw [land_two_pow_eq_zero_iff] at hz
      simp at hz
      simp [h1, hz]
    · rw [if_neg hji]

theorem sb_set_bit_cnt (v : srt_bitset) (i : Nat) (h1 : i / 8 < v.size) :
    (sb_set_bit v (i / 8) (1 <<< (i % 8))).vx_cnt =
      if sb_test (some v) i = 1 then v.vx_cnt else (v.vx_cnt + 1) % SIZE_MOD := by
  unfold sb_set_bit
  simp only [sv_get_buffer, Nat.one_shiftLeft]
  by_cases hz : v.buf.getD (i / 8) 0 &&& 2 ^ (i % 8) = 0
  · rw [if_pos hz]
    rw [land_two_pow_eq_zero_iff] at hz
    have ht : sb_test (some v) i = 0 := by
      rw [sb_test_some, if_neg (by rw [hz]; simp)]
    rw [ht, if_neg (by omega)]
  · rw [if_neg hz]
    rw [land_two_pow_eq_zero_iff, Bool.not_eq_false] at hz
    have ht : sb_test (some v) i = 1 := by
      rw [sb_test_some, if_pos ⟨h1, hz⟩]
    rw [ht, if_pos rfl]

/-! ## Structure of `sb_set` and `sb_reset` -/

theorem sb_set_none (m : sv_mem) (i : Nat) :
    sb_set m none i = (sb_alloc m i).bind (fun v => sb_set m (some v) i) := by
  unfold sb_set
  cases h : sb_alloc m i <;> simp

theorem sb_alloc_ok (m : sv_mem) (i : Nat) (h : sv_grants m (i / 8 + 1)) :
    sb_alloc m i = some { buf := sv_fresh m (i / 8 + 1 + m.slack), size := 0, vx_cnt := 0 } := by
  unfold sb_alloc sv_alloc SB_BITS2BYTES
  have e : 1 * (1 + i / 8) = i / 8 + 1 := by omega
  rw [e, if_pos h]

theorem sb_alloc_fail (m : sv_mem) (i : Nat) (h : ¬ sv_grants m (i / 8 + 1)) :
    sb_alloc m i = none := by
  unfold sb_alloc sv_alloc SB_BITS2BYTES
  have e : 1 * (1 + i / 8) = i / 8 + 1 := by omega
  rw [e, if_neg h]

theorem length_sv_fresh (m : sv_mem) (n : Nat) : (sv_fresh m n).length = n := by
  simp [sv_fresh]

theorem sv_reserve_snd (m : sv_mem) (v : srt_vector) (n : Nat) :
    (sv_reserve m v n).2 = (sv_reserve m v n).1.buf.length := by
  unfold sv_reserve
  by_cases h1 : n ≤ v.buf.length
  · rw [if_pos h1]
  · rw [if_neg h1]
    by_cases h2 : sv_grants m n
    · rw [if_pos h2]; simp [length_sv_fresh]; omega
    · rw [if_neg h2]

theorem sv_reserve_ok (m : sv_mem) (v : srt_vector) (n : Nat)
    (hv : v.buf.length < SV_MAX_BYTES) (h : n ≤ v.buf.length ∨ sv_grants m n) :
    n ≤ (sv_reserve m v n).1.buf.length ∧ (sv_reserve m v n).1.buf.length < SV_MAX_BYTES ∧
      v.buf.length ≤ (sv_reserve m v n).1.buf.length := by
  unfold sv_reserve
  by_cases h1 : n ≤ v.buf.length
  · rw [if_pos h1]; exact ⟨h1, hv, le_refl _⟩
  · rw [if_neg h1]
    have h2 : sv_grants m n := h.resolve_left h1
    rw [if_pos h2]
    have h3 := h2.2
    simp only [List.length_append, length_sv_fresh]
    omega

theorem sv_reserve_fail (m : sv_mem) (v : srt_vector) (n : Nat)
    (h : ¬ (n ≤ v.buf.length ∨ sv_grants m n)) : sv_reserve m v n = (v, v.buf.length) := by
  unfold sv_reserve
  rw [if_neg (fun h1 => h (Or.inl h1)), if_neg (fun h2 => h (Or.inr h2))]

theorem sv_reserve_frame (m : sv_mem) (v : srt_vector) (n : Nat) :
    (sv_reserve m v n).1.size = v.size ∧ (sv_reserve m v n).1.vx_cnt = v.vx_cnt ∧
      ∀ p, p < v.buf.length → (sv_reserve m v n).1.buf.getD p 0 = v.buf.getD p 0 := by
  unfold sv_reserve
  by_cases h1 : n ≤ v.buf.length
  · rw [if_pos h1]; exact ⟨rfl, rfl, fun _ _ => rfl⟩
  · rw [if_neg h1]
    by_cases h2 : sv_grants m n
    · rw [if_pos h2]
      refine ⟨rfl, rfl, fun p hp => ?_⟩
      simp [List.getD_eq_getElem?_getD, List.getElem?_append_left hp]
    · rw [if_neg h2]; exact ⟨rfl, rfl, fun _ _ => rfl⟩

theorem sb_set_some_ok (m : sv_mem) (v : srt_bitset) (i : Nat)
    (hv : v.buf.length < SV_MAX_BYTES) (h : sb_set_ok m (some v) i) :
    sb_set m (some v) i = some (sb_set_bit (sb_set_prep m v i) (i / 8) (1 <<< (i % 8))) := by
  have hr := sv_reserve_ok m v (i / 8 + 1) hv h
  have hs := sv_reserve_snd m v (i / 8 + 1)
  unfold sb_set sb_set_prep
  simp only []
  by_cases hg : i / 8 + 1 > sv_size v
  · rw [if_pos hg, if_pos hg]
    rw [if_neg (by omega)]
  · rw [if_neg hg, if_neg hg]

theorem sb_set_some_fail (m : sv_mem) (v : srt_bitset) (i : Nat)
    (hw : v.size ≤ v.buf.length) (h : ¬ sb_set_ok m (some v) i) :
    sb_set m (some v) i = some v := by
  have hf := sv_reserve_fail m v (i / 8 + 1) h
  have hc : v.buf.length < i / 8 + 1 := by
    have : ¬ (i / 8 + 1 ≤ v.buf.length) := fun h1 => h (Or.inl h1)
    omega
  unfold sb_set
  simp only []
  rw [if_pos (by simp only [sv_size]; omega), hf]
  simp only []
  rw [if_pos hc]

theorem sb_set_prep_size (m : sv_mem) (v : srt_bitset) (i : Nat) :
    (sb_set_prep m v i).size = max v.size (i / 8 + 1) := by
  unfold sb_set_prep
  by_cases hg : i / 8 + 1 > sv_size v
  · rw [if_pos hg]; simp only [sv_set_size, sv_size] at *; omega
  · rw [if_neg hg]; simp only [sv_size] at *; omega

theorem sb_set_prep_cnt (m : sv_mem) (v : srt_bitset) (i : Nat) :
    (sb_set_prep m v i).vx_cnt = v.vx_cnt := by
  unfold sb_set_prep
  by_cases hg : i / 8 + 1 > sv_size v
  · rw [if_pos hg]; simp only [sv_set_size]; exact (sv_reserve_frame m v _).2.1
  · rw [if_neg hg]

theorem sb_set_prep_length (m : sv_mem) (v : srt_bitset) (i : Nat)
    (hw : v.size ≤ v.buf.length) (hv : v.buf.length < SV_MAX_BYTES) (h : sb_set_ok m (some v) i) :
    (sb_set_prep m v i).size ≤ (sb_set_prep m v i).buf.length ∧
      (sb_set_prep m v i).buf.length < SV_MAX_BYTES ∧
      v.buf.length ≤ (sb_set_prep m v i).buf.length := by
  have hr := sv_reserve_ok m v (i / 8 + 1) hv h
  unfold sb_set_prep
  by_cases hg : i / 8 + 1 > sv_size v
  · rw [if_pos hg]
    simp only [sv_set_size, sv_get_buffer, length_memset]
    omega
  · rw [if_neg hg]; omega

theorem sb_test_prep (m : sv_mem) (v : srt_bitset) (i j : Nat)
    (hw : v.size ≤ v.buf.length) (hv : v.buf.length < SV_MAX_BYTES) (h : sb_set_ok m (some v) i) :
    sb_test (some (sb_set_prep m v i)) j = sb_test (some v) j := by
  have hr := sv_reserve_ok m v (i / 8 + 1) hv h
  have hf := sv_reserve_frame m v (i / 8 + 1)
  unfold sb_set_prep
  by_cases hg : i / 8 + 1 > sv_size v
  · rw [if_pos hg, sb_test_some, sb_test_some]
    simp only [sv_size] at hg
    simp only [sv_set_size, sv_get_buffer, sv_size, hf.1]
    by_cases hj : j / 8 < v.size
    · have hget : (memset (sv_reserve m v (i / 8 + 1)).1.buf v.size 0
          (i / 8 + 1 - v.size)).getD (j / 8) 0 = v.buf.getD (j / 8) 0 := by
        rw [getD_memset, if_neg (by omega), hf.2.2 _ (by omega)]
      have : j / 8 < i / 8 + 1 := by omega
      rw [hget]
      simp only [this, hj, true_and]
    · have hget : (memset (sv_reserve m v (i / 8 + 1)).1.buf v.size 0
          (i / 8 + 1 - v.size)).getD (j / 8) 0 = 0 ∨ ¬ j / 8 < i / 8 + 1 := by
        by_cases hj2 : j / 8 < i / 8 + 1
        · left; rw [getD_memset, if_pos (by omega)]
        · right; exact hj2
      rcases hget with h0 | h0
      · rw [h0]; simp [hj]
      · simp [hj, h0]
  · rw [if_neg hg]

theorem sb_set_spec (m : sv_mem) (b : Option srt_bitset) (i : Nat) (hw : WF b)
    (hok : sb_set_ok m b i) :
    ∃ w, sb_set m b i = some w ∧ w.size = max (size_bytes b) (i / 8 + 1) ∧
      w.size ≤ w.buf.length ∧ w.buf.length < SV_MAX_BYTES ∧ sv_capacity b ≤ w.buf.length ∧
      (∀ j, sb_test (some w) j = if j = i then 1 else sb_test b j) ∧
      w.vx_cnt = if sb_test b i = 1 then sb_popcount b else (sb_popcount b + 1) % SIZE_MOD := by
  have key : ∀ v : srt_bitset, v.size ≤ v.buf.length → v.buf.length < SV_MAX_BYTES →
      sb_set_ok m (some v) i →
      ∃ w, sb_set m (some v) i = some w ∧ w.size = max v.size (i / 8 + 1) ∧
        w.size ≤ w.buf.length ∧ w.buf.length < SV_MAX_BYTES ∧ v.buf.length ≤ w.buf.length ∧
        (∀ j, sb_test (some w) j = if j = i then 1 else sb_test (some v) j) ∧
        w.vx_cnt = if sb_test (some v) i = 1 then v.vx_cnt else (v.vx_cnt + 1) % SIZE_MOD := by
    intro v h1 h2 h3
    have hsz := sb_set_prep_size m v i
    have hlen := sb_set_prep_length m v i h1 h2 h3
    have hpos : i / 8 < (sb_set_prep m v i).size := by rw [hsz]; omega
    refine ⟨_, sb_set_some_ok m v i h2 h3, ?_, ?_, ?_, ?_, ?_, ?_⟩
    · rw [sb_set_bit_size, hsz]
    · rw [sb_set_bit_size, sb_set_bit_length]; exact hlen.1
    · rw [sb_set_bit_length]; exact hlen.2.1
    · rw [sb_set_bit_length]; exact hlen.2.2
    · intro j
      rw [sb_test_set_bit _ i j hpos hlen.1, sb_test_prep m v i j h1 h2 h3]
    · rw [sb_set_bit_cnt _ i hpos, sb_test_prep m v i i h1 h2 h3, sb_set_prep_cnt]
  cases b with
  | some v => exact key v hw.1 hw.2.1 hok
  | none =>
    have hg : sv_grants m (i / 8 + 1) := by
      rcases hok with h | h
      · simp [sv_capacity] at h
      · exact h
    have hmax := hg.2
    rw [sb_set_none, sb_alloc_ok m i hg]
    obtain ⟨w, e, h1, h2, h3, h4, h5, h6⟩ :=
      key { buf := sv_fresh m (i / 8 + 1 + m.slack), size := 0, vx_cnt := 0 }
        (Nat.zero_le _) (by rw [length_sv_fresh]; exact hmax)
        (Or.inl (by simp only [sv_capacity, length_sv_fresh]; omega))
    have ht : ∀ j, sb_test
        (some { buf := sv_fresh m (i / 8 + 1 + m.slack), size := 0, vx_cnt := 0 }) j = 0 := by
      intro j; rw [sb_test_some]; simp
    refine ⟨w, e, ?_, h2, h3, Nat.zero_le _, ?_, ?_⟩
    · rw [h1]; simp [size_bytes]
    · intro j; rw [h5, ht]; simp [sb_test]
    · rw [h6, ht]; simp [sb_test, sb_popcount]

theorem sb_set_fail (m : sv_mem) (b : Option srt_bitset) (i : Nat) (hw : WF b)
    (hok : ¬ sb_set_ok m b i) : sb_set m b i = b := by
  cases b with
  | some v => exact sb_set_some_fail m v i hw.1 hok
  | none =>
    have hg : ¬ sv_grants m (i / 8 + 1) := fun h => hok (Or.inr h)
    rw [sb_set_none, sb_alloc_fail m i hg]; rfl

theorem sb_reset_spec (v : srt_bitset) (i : Nat) (hw : v.size ≤ v.buf.length) :
    ∃ w, sb_reset (some v) i = some w ∧ w.size = v.size ∧ w.buf.length = v.buf.length ∧
      (∀ j, sb_test (some w) j = if j = i then 0 else sb_test (some v) j) ∧
      w.vx_cnt = if sb_test (some v) i = 1 then (v.vx_cnt + SIZE_MOD - 1) % SIZE_MOD
        else v.vx_cnt := by
  unfold sb_reset
  simp only [sv_size, sv_get_buffer, Nat.one_shiftLeft]
  by_cases hp : i / 8 < v.size
  · rw [if_pos hp]
    have hlen : i / 8 < v.buf.length := by omega
    have h8 : i % 8 < 8 := Nat.mod_lt _ (by norm_num)
    by_cases hz : v.buf.getD (i / 8) 0 &&& 2 ^ (i % 8) = 0
    · rw [if_neg (by simpa using hz)]
      rw [land_two_pow_eq_zero_iff] at hz
      have ht : sb_test (some v) i = 0 := by
        rw [sb_test_some, if_neg (by rw [hz]; simp)]
      refine ⟨v, rfl, rfl, rfl, ?_, ?_⟩
      · intro j
        by_cases hji : j = i
        · subst hji; rw [if_pos rfl, ht]
        · rw [if_neg hji]
      · rw [ht, if_neg (by omega)]
    · rw [if_pos hz]
      rw [land_two_pow_eq_zero_iff, Bool.not_eq_false] at hz
      have ht : sb_test (some v) i = 1 := by
        rw [sb_test_some, if_pos ⟨hp, hz⟩]
      refine ⟨_, rfl, rfl, by simp, ?_, ?_⟩
      · intro j
        have h8j : j % 8 < 8 := Nat.mod_lt _ (by norm_num)
        rw [sb_test_some, sb_test_some]
        by_cases hji : j = i
        · subst hji
          have hget : (List.set v.buf (j / 8)
              ((v.buf.getD (j / 8) 0 &&& SIZE_MOD - 1 - 2 ^ (j % 8)) % 256)).getD (j / 8) 0 =
              (v.buf.getD (j / 8) 0 &&& SIZE_MOD - 1 - 2 ^ (j % 8)) % 256 := by
            rw [getD_set, if_pos ⟨rfl, hlen⟩]
          simp only [hget, testBit_clear_mask _ _ _ h8 h8]
          simp
        · rw [if_neg hji]
          by_cases hq : j / 8 = i / 8
          · have hr : ¬ i % 8 = j % 8 := by omega
            have hget : (List.set v.buf (i / 8)
                ((v.buf.getD (i / 8) 0 &&& SIZE_MOD - 1 - 2 ^ (i % 8)) % 256)).getD (j / 8) 0 =
                (v.buf.getD (i / 8) 0 &&& SIZE_MOD - 1 - 2 ^ (i % 8)) % 256 := by
              rw [getD_set, if_pos ⟨hq, hlen⟩]
            rw [hq] at hget
            simp only [hq, hget, testBit_clear_mask _ _ _ h8 h8j]
            simp [hr]
          · have hget : (List.set v.buf (i / 8)
                ((v.buf.getD (i / 8) 0 &&& SIZE_MOD - 1 - 2 ^ (i % 8)) % 256)).getD (j / 8) 0 =
                v.buf.getD (j / 8) 0 := by
              rw [getD_set, if_neg (fun h => hq h.1)]
            simp only [hget]
      · rw [ht, if_pos rfl]
  · rw [if_neg hp]
    have ht : sb_test (some v) i = 0 := by
      rw [sb_test_some, if_neg (fun h => hp h.1)]
    refine ⟨v, rfl, rfl, rfl, ?_, ?_⟩
    · intro j
      by_cases hji : j = i
      · subst hji; rw [if_pos rfl, ht]
      · rw [if_neg hji]
    · rw [ht, if_neg (by omega)]

/-! ## Counting -/

theorem bitcount_eq_card (b : Option srt_bitset) : bitcount b = (bits b).card := by
  unfold bitcount bits
  rfl

theorem mem_bits (b : Option srt_bitset) (j : Nat) : j ∈ bits b ↔ sb_test b j = 1 := by
  unfold bits
  rw [Finset.mem_filter, Finset.mem_range]
  exact ⟨fun h => h.2, fun h => ⟨sb_test_eq_one_lt b j h, h⟩⟩

theorem card_bits_le (b : Option srt_bitset) : (bits b).card ≤ 8 * size_bytes b := by
  unfold bits
  calc (Finset.filter (fun i => sb_test b i = 1) (Finset.range (8 * size_bytes b))).card
      ≤ (Finset.range (8 * size_bytes b)).card := Finset.card_filter_le _ _
    _ = 8 * size_bytes b := Finset.card_range _

theorem bits_congr (b c : Option srt_bitset) (h : ∀ j, sb_test c j = sb_test b j) :
    bits c = bits b := by
  ext j; rw [mem_bits, mem_bits, h]

theorem bits_insert (b c : Option srt_bitset) (i : Nat)
    (h : ∀ j, sb_test c j = if j = i then 1 else sb_test b j) : bits c = insert i (bits b) := by
  ext j
  rw [Finset.mem_insert, mem_bits, mem_bits, h]
  by_cases hj : j = i
  · simp [hj]
  · simp [hj]

theorem bits_erase (b c : Option srt_bitset) (i : Nat)
    (h : ∀ j, sb_test c j = if j = i then 0 else sb_test b j) : bits c = (bits b).erase i := by
  ext j
  rw [Finset.mem_erase, mem_bits, mem_bits, h]
  by_cases hj : j = i
  · simp [hj]
  · simp [hj]

theorem I1_iff (b : Option srt_bitset) : I1 b ↔ sb_popcount b = (bits b).card := by
  unfold I1; rw [bitcount_eq_card]

theorem sb_test_zero_or_one (b : Option srt_bitset) (j : Nat) :
    sb_test b j = 0 ∨ sb_test b j = 1 := by
  have := sb_test_le_one b j
  omega

/-! ## Preservation of the invariant -/

theorem Inv_alloc (m : sv_mem) (n : Nat) : Inv (sb_alloc m n) := by
  unfold sb_alloc sv_alloc
  by_cases h : sv_grants m (1 * SB_BITS2BYTES n)
  · rw [if_pos h]
    refine ⟨⟨Nat.zero_le _, ?_, ?_⟩, ?_⟩
    · rw [length_sv_fresh]; exact h.2
    · simp [SIZE_MOD, SIZE_BITS]
    · simp [I1, sb_popcount, bitcount, size_bytes, sv_size]
  · rw [if_neg h]; exact ⟨trivial, rfl⟩

theorem Inv_set (m : sv_mem) (b : Option srt_bitset) (i : Nat) (h : Inv b) :
    Inv (sb_set m b i) := by
  by_cases hok : sb_set_ok m b i
  · obtain ⟨w, e, h1, h2, h3, _, h5, h6⟩ := sb_set_spec m b i h.1 hok
    rw [e]
    have hI := (I1_iff b).1 h.2
    have hb := bits_insert b (some w) i h5
    have hcard := card_bits_le (some w)
    have hsz : size_bytes (some w) = w.size := rfl
    have hM : SIZE_MOD = 8 * SV_MAX_BYTES := by simp [SIZE_MOD, SIZE_BITS, SV_MAX_BYTES]
    have hcnt : w.vx_cnt = (bits (some w)).card := by
      rw [h6, hb]
      by_cases ht : sb_test b i = 1
      · rw [if_pos ht, Finset.insert_eq_of_mem ((mem_bits b i).2 ht)]; exact hI
      · rw [if_neg ht]
        have hn : i ∉ bits b := fun hmem => ht ((mem_bits b i).1 hmem)
        rw [hb, Finset.card_insert_of_not_mem hn] at hcard
        rw [Finset.card_insert_of_not_mem hn, hI]
        apply Nat.mod_eq_of_lt
        omega
    refine ⟨⟨h2, h3, ?_⟩, (I1_iff _).2 hcnt⟩
    rw [hcnt]; omega
  · rw [sb_set_fail m b i h.1 hok]; exact h

theorem Inv_reset (b : Option srt_bitset) (i : Nat) (h : Inv b) : Inv (sb_reset b i) := by
  cases b with
  | none => exact h
  | some v =>
    obtain ⟨w, e, h1, h2, h3, h4⟩ := sb_reset_spec v i h.1.1
    rw [e]
    have hI := (I1_iff (some v)).1 h.2
    have hb := bits_erase (some v) (some w) i h3
    have hlt : v.vx_cnt < SIZE_MOD := h.1.2.2
    have hcnt : w.vx_cnt = (bits (some w)).card := by
      rw [h4, hb]
      by_cases ht : sb_test (some v) i = 1
      · have hmem := (mem_bits (some v) i).2 ht
        have hpos : 0 < (bits (some v)).card := Finset.card_pos.2 ⟨i, hmem⟩
        rw [if_pos ht, Finset.card_erase_of_mem hmem]
        have hv : v.vx_cnt = (bits (some v)).card := hI
        have e2 : v.vx_cnt + SIZE_MOD - 1 = (v.vx_cnt - 1) + SIZE_MOD := by omega
        rw [e2, Nat.add_mod_right, Nat.mod_eq_of_lt (by omega), hv]
      · have hn : i ∉ bits (some v) := fun hmem => ht ((mem_bits _ i).1 hmem)
        rw [if_neg ht, Finset.erase_eq_of_not_mem hn]; exact hI
    refine ⟨⟨?_, ?_, ?_⟩, (I1_iff _).2 hcnt⟩
    · rw [h1, h2]; exact h.1.1
    · rw [h2]; exact h.1.2.1
    · rw [h4]; split
      · exact Nat.mod_lt _ (by simp [SIZE_MOD, SIZE_BITS])
      · exact hlt

theorem Inv_clear (b : Option srt_bitset) (h : Inv b) : Inv (sb_clear b) := by
  cases b with
  | none => exact h
  | some v =>
    refine ⟨⟨Nat.zero_le _, h.1.2.1, by simp [SIZE_MOD, SIZE_BITS]⟩, ?_⟩
    simp [I1, sb_clear, sb_popcount, bitcount, size_bytes, sv_size, sv_set_size]

theorem Inv_eval (m : sv_mem) (b : Option srt_bitset) (i : Nat) (h : Inv b) :
    Inv (sb_eval m b i) := by
  unfold sb_eval
  simp only []
  split
  · exact Inv_reset _ i (Inv_set m b i h)
  · exact Inv_set m b i h

theorem sb_test_reserve (m : sv_mem) (v : srt_bitset) (n j : Nat) (hw : v.size ≤ v.buf.length) :
    sb_test (some (sv_reserve m v n).1) j = sb_test (some v) j := by
  have hf := sv_reserve_frame m v n
  rw [sb_test_some, sb_test_some]
  simp only [hf.1]
  by_cases hj : j / 8 < v.size
  · simp only [hf.2.2 _ (show j / 8 < v.buf.length by omega)]
  · simp [hj]

theorem sv_reserve_length (m : sv_mem) (v : srt_vector) (n : Nat)
    (hv : v.buf.length < SV_MAX_BYTES) :
    v.buf.length ≤ (sv_reserve m v n).1.buf.length ∧
      (sv_reserve m v n).1.buf.length < SV_MAX_BYTES := by
  by_cases h : n ≤ v.buf.length ∨ sv_grants m n
  · have := sv_reserve_ok m v n hv h; exact ⟨this.2.2, this.2.1⟩
  · rw [sv_reserve_fail m v n h]; exact ⟨le_refl _, hv⟩

theorem Inv_reserve (m : sv_mem) (b : Option srt_bitset) (n : Nat) (h : Inv b) :
    Inv (sb_reserve m b n).1 := by
  cases b with
  | none => exact h
  | some v =>
    have hf := sv_reserve_frame m v (1 + n / 8)
    have hl := sv_reserve_length m v (1 + n / 8) h.1.2.1
    have hb := bits_congr (some v) (some (sv_reserve m v (1 + n / 8)).1)
      (fun j => sb_test_reserve m v _ j h.1.1)
    show Inv (some (sv_reserve m v (1 + n / 8)).1)
    refine ⟨⟨?_, hl.2, ?_⟩, ?_⟩
    · rw [hf.1]; exact le_trans h.1.1 hl.1
    · rw [hf.2.1]; exact h.1.2.2
    · rw [I1_iff, hb]
      show (sv_reserve m v (1 + n / 8)).1.vx_cnt = _
      rw [hf.2.1]; exact (I1_iff _).1 h.2

theorem sb_test_sv_shrink (v : srt_bitset) (j : Nat) :
    sb_test (some (sv_shrink v)) j = sb_test (some v) j := by
  rw [sb_test_some, sb_test_some]
  simp only [sv_shrink]
  by_cases hj : j / 8 < v.size
  · have : (List.take v.size v.buf).getD (j / 8) 0 = v.buf.getD (j / 8) 0 := by
      simp [List.getD_eq_getElem?_getD, List.getElem?_take, hj]
    simp only [this]
  · simp [hj]

theorem sb_test_size_zero (v : srt_bitset) (j : Nat) : sb_test (some (sv_set_size v 0)) j = 0 := by
  rw [sb_test_some]; simp [sv_set_size]

theorem sb_test_zero_of_popcount (b : Option srt_bitset) (h : I1 b) (h0 : sb_popcount b = 0)
    (j : Nat) : sb_test b j = 0 := by
  rw [I1_iff, h0] at h
  have he : bits b = ∅ := Finset.card_eq_zero.1 h.symm
  rcases sb_test_zero_or_one b j with h1 | h1
  · exact h1
  · have := (mem_bits b j).2 h1
    rw [he] at this
    exact absurd this (Finset.not_mem_empty j)

theorem sb_test_shrink (b : Option srt_bitset) (h : I1 b) (j : Nat) :
    sb_test (sb_shrink b) j = sb_test b j := by
  cases b with
  | none => rfl
  | some v =>
    unfold sb_shrink
    simp only []
    split
    · rename_i h0
      rw [sb_test_sv_shrink, sb_test_size_zero, sb_test_zero_of_popcount _ h h0]
    · rw [sb_test_sv_shrink]

theorem sb_popcount_shrink (b : Option srt_bitset) : sb_popcount (sb_shrink b) = sb_popcount b := by
  cases b with
  | none => rfl
  | some v =>
    unfold sb_shrink
    simp only []
    split <;> rfl

theorem Inv_shrink (b : Option srt_bitset) (h : Inv b) : Inv (sb_shrink b) := by
  have hb := bits_congr b (sb_shrink b) (fun j => sb_test_shrink b h.2 j)
  refine ⟨?_, ?_⟩
  · cases b with
    | none => exact trivial
    | some v =>
      unfold sb_shrink
      simp only []
      have hlen := h.1.2.1
      split
      · refine ⟨?_, ?_, h.1.2.2⟩
        · simp [sv_shrink, sv_set_size]
        · simp [sv_shrink, sv_set_size]; simp [SV_MAX_BYTES]
      · refine ⟨?_, ?_, h.1.2.2⟩
        · simp only [sv_shrink, List.length_take]; have := h.1.1; omega
        · simp only [sv_shrink, List.length_take]; omega
  · rw [I1_iff, hb, sb_popcount_shrink]; exact (I1_iff _).1 h.2

theorem size_bytes_reset (b : Option srt_bitset) (i : Nat) :
    size_bytes (sb_reset b i) = size_bytes b := by
  cases b with
  | none => rfl
  | some v =>
    unfold sb_reset
    simp only []
    split
    · split <;> rfl
    · rfl

theorem sv_capacity_reset (b : Option srt_bitset) (i : Nat) :
    sv_capacity (sb_reset b i) = sv_capacity b := by
  cases b with
  | none => rfl
  | some v =>
    unfold sb_reset
    simp only []
    split
    · split
      · simp [sv_capacity, sv_get_buffer]
      · rfl
    · rfl

theorem sb_reset_noop (b : Option srt_bitset) (i : Nat) (h : b = none ∨ size_bytes b ≤ i / 8) :
    sb_reset b i = b := by
  cases b with
  | none => rfl
  | some v =>
    have hs : v.size ≤ i / 8 := by
      rcases h with h | h
      · exact Option.noConfusion h
      · exact h
    unfold sb_reset
    simp only [sv_size]
    rw [if_neg (by omega)]

theorem sb_test_reset_all (b : Option srt_bitset) (i j : Nat) (hw : WF b) :
    sb_test (sb_reset b i) j = if j = i then 0 else sb_test b j := by
  cases b with
  | none => simp [sb_reset, sb_test]
  | some v =>
    obtain ⟨w, e, _, _, h3, _⟩ := sb_reset_spec v i hw.1
    rw [e, h3]

theorem mod_inc_dec (c M : Nat) (hc : c < M) : ((c + 1) % M + M - 1) % M = c := by
  by_cases h : c + 1 = M
  · rw [h, Nat.mod_self, Nat.zero_add, Nat.mod_eq_of_lt (by omega)]; omega
  · rw [Nat.mod_eq_of_lt (show c + 1 < M by omega)]
    have e2 : c + 1 + M - 1 = c + M := by omega
    rw [e2, Nat.add_mod_right, Nat.mod_eq_of_lt hc]

theorem mod_dec (c M : Nat) (h1 : 0 < c) (hc : c < M) : (c + M - 1) % M = c - 1 := by
  have e2 : c + M - 1 = (c - 1) + M := by omega
  rw [e2, Nat.add_mod_right, Nat.mod_eq_of_lt (by omega)]

theorem sb_popcount_some (v : srt_bitset) : sb_popcount (some v) = v.vx_cnt := rfl

theorem sb_popcount_reset_all (b : Option srt_bitset) (i : Nat) :
    sb_popcount (sb_reset b i) =
      if sb_test b i = 1 then (sb_popcount b + SIZE_MOD - 1) % SIZE_MOD else sb_popcount b := by
  cases b with
  | none =>
    have ht : sb_test none i = 0 := rfl
    have h01 : ¬ ((0 : Nat) = 1) := by omega
    rw [ht, if_neg h01]
    simp only [sb_reset]
  | some v =>
    unfold sb_reset
    simp only [sv_size, sv_get_buffer, Nat.one_shiftLeft]
    by_cases hp : i / 8 < v.size
    · rw [if_pos hp]
      by_cases hz : v.buf.getD (i / 8) 0 &&& 2 ^ (i % 8) = 0
      · rw [if_neg (by simpa using hz)]
        rw [land_two_pow_eq_zero_iff] at hz
        have ht : sb_test (some v) i = 0 := by
          rw [sb_test_some, if_neg (by rw [hz]; simp)]
        rw [ht, if_neg (by omega)]
      · rw [if_pos hz]
        rw [land_two_pow_eq_zero_iff, Bool.not_eq_false] at hz
        have ht : sb_test (some v) i = 1 := by
          rw [sb_test_some, if_pos ⟨hp, hz⟩]
        rw [sb_popcount_some, sb_popcount_some, ht, if_pos rfl]
    · rw [if_neg hp]
      have ht : sb_test (some v) i = 0 := by
        rw [sb_test_some, if_neg (fun h => hp h.1)]
      rw [ht, if_neg (by omega)]

theorem sb_popcount_lt (b : Option srt_bitset) (hw : WF b) : sb_popcount b < SIZE_MOD := by
  cases b with
  | none => simp [sb_popcount, SIZE_MOD, SIZE_BITS]
  | some v => exact hw.2.2

theorem WF_set (m : sv_mem) (b : Option srt_bitset) (i : Nat) (hw : WF b) :
    WF (sb_set m b i) := by
  by_cases hok : sb_set_ok m b i
  · obtain ⟨w, e, _, h2, h3, _, _, h6⟩ := sb_set_spec m b i hw hok
    rw [e]
    refine ⟨h2, h3, ?_⟩
    rw [h6]
    split
    · exact sb_popcount_lt b hw
    · exact Nat.mod_lt _ (by simp [SIZE_MOD, SIZE_BITS])
  · rw [sb_set_fail m b i hw hok]; exact hw

theorem sb_eval_test_popcount (m : sv_mem) (b : Option srt_bitset) (i j : Nat) (hw : WF b) :
    sb_test (sb_eval m b i) j = sb_test b j ∧ sb_popcount (sb_eval m b i) = sb_popcount b := by
  have hlt := sb_popcount_lt b hw
  have hws := WF_set m b i hw
  unfold sb_eval
  simp only []
  by_cases hok : sb_set_ok m b i
  · obtain ⟨w, e, _, _, _, _, h5, h6⟩ := sb_set_spec m b i hw hok
    by_cases hp : sb_test b i = 0
    · rw [if_pos hp, sb_test_reset_all _ i j hws, sb_popcount_reset_all, e, h5, h5]
      refine ⟨?_, ?_⟩
      · by_cases hji : j = i
        · subst hji; rw [if_pos rfl, hp]
        · rw [if_neg hji, if_neg hji]
      · rw [if_pos rfl, if_pos rfl]
        have h01 : ¬ sb_test b i = 1 := by omega
        rw [sb_popcount_some, h6, if_neg h01]
        exact mod_inc_dec _ _ hlt
    · have h1 : sb_test b i = 1 := (sb_test_zero_or_one b i).resolve_left hp
      rw [if_neg hp, e, h5]
      refine ⟨?_, ?_⟩
      · by_cases hji : j = i
        · subst hji; rw [if_pos rfl, h1]
        · rw [if_neg hji]
      · rw [sb_popcount_some, h6, if_pos h1]
  · rw [sb_set_fail m b i hw hok]
    by_cases hp : sb_test b i = 0
    · rw [if_pos hp, sb_test_reset_all _ i j hw, sb_popcount_reset_all, hp]
      refine ⟨?_, ?_⟩
      · by_cases hji : j = i
        · subst hji; rw [if_pos rfl, hp]
        · rw [if_neg hji]
      · rw [if_neg (by omega)]
    · rw [if_neg hp]; exact ⟨rfl, rfl⟩

theorem sb_eval_size_capacity (m : sv_mem) (b : Option srt_bitset) (i : Nat) :
    size_bytes (sb_eval m b i) = size_bytes (sb_set m b i) ∧
      sv_capacity (sb_eval m b i) = sv_capacity (sb_set m b i) := by
  unfold sb_eval
  simp only []
  split
  · exact ⟨size_bytes_reset _ i, sv_capacity_reset _ i⟩
  · exact ⟨rfl, rfl⟩

theorem sb_set_size_capacity (m : sv_mem) (b : Option srt_bitset) (i : Nat) (hw : WF b)
    (hok : sb_set_ok m b i) :
    size_bytes (sb_set m b i) = max (size_bytes b) (i / 8 + 1) ∧
      i / 8 + 1 ≤ sv_capacity (sb_set m b i) ∧ sv_capacity (sb_set m b i) < SV_MAX_BYTES := by
  obtain ⟨w, e, h1, h2, h3, _, _, _⟩ := sb_set_spec m b i hw hok
  rw [e]
  refine ⟨h1, ?_, h3⟩
  show i / 8 + 1 ≤ w.buf.length
  have : i / 8 + 1 ≤ w.size := by rw [h1]; exact le_max_right _ _
  omega

theorem sb_capacity_ge (b : Option srt_bitset) (i : Nat) (h1 : i / 8 + 1 ≤ sv_capacity b)
    (h2 : sv_capacity b < SV_MAX_BYTES) : i + 1 ≤ sb_capacity b := by
  unfold sb_capacity
  have hM : SIZE_MOD = 8 * SV_MAX_BYTES := by simp [SIZE_MOD, SIZE_BITS, SV_MAX_BYTES]
  rw [Nat.mod_eq_of_lt (by omega)]
  omega

/-! ## The claims -/

/-- C1, invariant I1: a freshly allocated bitset has `sb_popcount` equal to the number
of indices in `[0, 8 * size_bytes)` that test as 1, and each of `sb_set`, `sb_reset`,
`sb_clear`, `sb_eval`, `sb_reserve`, `sb_shrink`, applied to a (well-formed) bitset for
which the equality holds, returns a (well-formed) bitset for which it holds, for every
index argument and every answer of the allocator. -/
theorem C1_I1_invariant (b : Option srt_bitset) (h : Inv b) :
    (∀ m n, Inv (sb_alloc m n)) ∧
    (∀ m i, Inv (sb_set m b i)) ∧
    (∀ i, Inv (sb_reset b i)) ∧
    Inv (sb_clear b) ∧
    (∀ m i, Inv (sb_eval m b i)) ∧
    (∀ m n, Inv (sb_reserve m b n).1) ∧
    Inv (sb_shrink b) :=
  ⟨Inv_alloc, fun m i => Inv_set m b i h, fun i => Inv_reset b i h, Inv_clear b h,
    fun m i => Inv_eval m b i h, fun m n => Inv_reserve m b n h, Inv_shrink b h⟩

/-- Witness of C1 on the scenario bitset (bits 3, 5, 100 set): it satisfies the
invariant, hence so does the bitset after `sb_reset` of bit 5. -/
theorem C1_I1_invariant_witness : Inv scenario ∧ Inv (sb_reset scenario 5) :=
  ⟨by decide, (C1_I1_invariant scenario (by decide)).2.2.1 5⟩

/-- C2: when no allocation fails, `sb_test` after `sb_set(b, i)` is 1 at `i` and is
unchanged at every other index, for every handle (null included) and whatever the
bytes of the buffer at offsets beyond `size_bytes` are. -/
theorem C2_test_after_set (m : sv_mem) (b : Option srt_bitset) (i j : Nat) (hw : WF b)
    (hok : sb_set_ok m b i) :
    sb_test (sb_set m b i) j = if j = i then 1 else sb_test b j := by
  obtain ⟨w, e, _, _, _, _, h5, _⟩ := sb_set_spec m b i hw hok
  rw [e, h5]

/-- Witness of C2: after `sb_clear` the buffer of the scenario bitset still holds the
stale byte of bit 3; setting bit 100 does not make bit 3 reappear. -/
theorem C2_test_after_set_witness :
    WF (sb_clear scenario) ∧ sb_set_ok mem_none (sb_clear scenario) 100 ∧
      sb_test (sb_set mem_none (sb_clear scenario) 100) 3 =
        if 3 = 100 then 1 else sb_test (sb_clear scenario) 3 :=
  ⟨by decide, by decide,
    C2_test_after_set mem_none (sb_clear scenario) 100 3 (by decide) (by decide)⟩

/-- C3: `sb_test` after `sb_reset(b, i)` is 0 at `i` and unchanged at every other
index, `size_bytes` is unchanged, and `sb_reset` returns the bitset as it was when the
handle is null or byte `i / 8` is beyond `size_bytes`. -/
theorem C3_test_after_reset (b : Option srt_bitset) (i j : Nat) (hw : WF b) :
    (sb_test (sb_reset b i) j = if j = i then 0 else sb_test b j) ∧
    size_bytes (sb_reset b i) = size_bytes b ∧
    ((b = none ∨ size_bytes b ≤ i / 8) → sb_reset b i = b) :=
  ⟨sb_test_reset_all b i j hw, size_bytes_reset b i, sb_reset_noop b i⟩

/-- Witness of C3 on the scenario bitset, bit 5. -/
theorem C3_test_after_reset_witness :
    WF scenario ∧ (sb_test (sb_reset scenario 5) 5 = if 5 = 5 then 0 else sb_test scenario 5) :=
  ⟨by decide, (C3_test_after_reset scenario 5 5 (by decide)).1⟩

/-- C4: when no allocation fails, `sb_set(b, i)` adds 1 to `sb_popcount` if bit `i`
tested 0 before the call and leaves it unchanged if it tested 1, for every valid bitset
(null included); on a fresh bitset, setting bits 3, 5 and 100 gives popcount 3. -/
theorem C4_popcount_after_set (m : sv_mem) (b : Option srt_bitset) (i : Nat) (h : Inv b)
    (hok : sb_set_ok m b i) :
    (sb_popcount (sb_set m b i) = if sb_test b i = 0 then sb_popcount b + 1 else sb_popcount b) ∧
    sb_popcount scenario = 3 := by
  refine ⟨?_, by decide⟩
  obtain ⟨w, e, h1, h2, h3, _, h5, h6⟩ := sb_set_spec m b i h.1 hok
  rw [e, sb_popcount_some, h6]
  by_cases ht : sb_test b i = 0
  · rw [if_neg (by omega), if_pos ht]
    apply Nat.mod_eq_of_lt
    have hI := (I1_iff b).1 h.2
    have hn : i ∉ bits b := fun hmem => by
      have := (mem_bits b i).1 hmem; omega
    have hcard := card_bits_le (some w)
    rw [bits_insert b (some w) i h5, Finset.card_insert_of_not_mem hn] at hcard
    have hsz : size_bytes (some w) = w.size := rfl
    have hM : SIZE_MOD = 8 * SV_MAX_BYTES := by simp [SIZE_MOD, SIZE_BITS, SV_MAX_BYTES]
    omega
  · have h1 : sb_test b i = 1 := (sb_test_zero_or_one b i).resolve_left ht
    rw [if_pos h1, if_neg ht]

/-- Witness of C4: setting bit 100 on the fresh bitset with bits 3 and 5 set. -/
theorem C4_popcount_after_set_witness :
    Inv (sb_set mem_ff (sb_set mem_ff (sb_alloc mem_ff 0) 3) 5) ∧
      sb_popcount (sb_set mem_ff (sb_set mem_ff (sb_set mem_ff (sb_alloc mem_ff 0) 3) 5) 100) =
        (if sb_test (sb_set mem_ff (sb_set mem_ff (sb_alloc mem_ff 0) 3) 5) 100 = 0
          then sb_popcount (sb_set mem_ff (sb_set mem_ff (sb_alloc mem_ff 0) 3) 5) + 1
          else sb_popcount (sb_set mem_ff (sb_set mem_ff (sb_alloc mem_ff 0) 3) 5)) :=
  ⟨by decide,
    (C4_popcount_after_set mem_ff (sb_set mem_ff (sb_set mem_ff (sb_alloc mem_ff 0) 3) 5) 100
      (by decide) (by decide)).1⟩

/-- C5: for every valid bitset and every index, `sb_popcount` after `sb_reset(b, i)`
plus the value `sb_test(b, i)` had before equals `sb_popcount` before: the counter
drops by exactly 1 when the bit was 1 and is unchanged when the bit was 0, out of
range, or the handle is null; after setting bits 3, 5, 100, `sb_reset` of bit 5 gives
popcount 2. -/
theorem C5_popcount_after_reset (b : Option srt_bitset) (i : Nat) (h : Inv b) :
    sb_popcount (sb_reset b i) + sb_test b i = sb_popcount b ∧
    sb_popcount (sb_reset scenario 5) = 2 := by
  refine ⟨?_, by decide⟩
  rw [sb_popcount_reset_all]
  by_cases ht : sb_test b i = 1
  · rw [if_pos ht, ht]
    have hI := (I1_iff b).1 h.2
    have hpos : 0 < (bits b).card := Finset.card_pos.2 ⟨i, (mem_bits b i).2 ht⟩
    have hlt := sb_popcount_lt b h.1
    rw [mod_dec _ _ (by omega) hlt]
    omega
  · have h0 : sb_test b i = 0 := (sb_test_zero_or_one b i).resolve_right ht
    rw [if_neg ht, h0]; rfl

/-- Witness of C5 on the scenario bitset, bit 5. -/
theorem C5_popcount_after_reset_witness :
    Inv scenario ∧ sb_popcount (sb_reset scenario 5) + sb_test scenario 5 = sb_popcount scenario :=
  ⟨by decide, (C5_popcount_after_reset scenario 5 (by decide)).1⟩

/-- C6: `sb_eval(b, i)` preserves the logical content: `sb_test` at every index and
`sb_popcount` are the same after the call as before, whether bit `i` was 1, 0 or out
of range, for every handle (null included); this holds whatever the allocator answers,
in particular when no allocation fails. -/
theorem C6_eval_preserves (m : sv_mem) (b : Option srt_bitset) (i j : Nat) (hw : WF b) :
    sb_test (sb_eval m b i) j = sb_test b j ∧ sb_popcount (sb_eval m b i) = sb_popcount b :=
  sb_eval_test_popcount m b i j hw

/-- Witness of C6: `sb_eval` of bit 50 on a fresh bitset. -/
theorem C6_eval_preserves_witness :
    WF (sb_alloc mem_ff 0) ∧
      sb_test (sb_eval mem_ff (sb_alloc mem_ff 0) 50) 50 = sb_test (sb_alloc mem_ff 0) 50 ∧
      sb_popcount (sb_eval mem_ff (sb_alloc mem_ff 0) 50) = sb_popcount (sb_alloc mem_ff 0) :=
  ⟨by decide, C6_eval_preserves mem_ff (sb_alloc mem_ff 0) 50 50 (by decide)⟩

/-- C7: after `sb_clear` of a non-null bitset, `sb_popcount` is 0, `size_bytes` is 0,
`sb_test` is 0 at every index, and `sb_capacity` is what it was before the call. -/
theorem C7_clear (v : srt_bitset) :
    sb_popcount (sb_clear (some v)) = 0 ∧ size_bytes (sb_clear (some v)) = 0 ∧
    (∀ i, sb_test (sb_clear (some v)) i = 0) ∧
    sb_capacity (sb_clear (some v)) = sb_capacity (some v) :=
  ⟨rfl, rfl, fun i => by simp [sb_clear, sb_test_some, sv_set_size], rfl⟩

/-- C8: `sb_shrink` does not change the logical content of a non-null bitset that
satisfies I1: `sb_test` at every index and `sb_popcount` are unchanged, also when
`sb_popcount` is 0 and `size_bytes` collapses to 0; `sb_shrink` of a null handle
returns null. -/
theorem C8_shrink_preserves (v : srt_bitset) (h : I1 (some v)) :
    (∀ i, sb_test (sb_shrink (some v)) i = sb_test (some v) i) ∧
    sb_popcount (sb_shrink (some v)) = sb_popcount (some v) ∧
    (sb_popcount (some v) = 0 → size_bytes (sb_shrink (some v)) = 0) ∧
    sb_shrink none = none := by
  refine ⟨sb_test_shrink _ h, sb_popcount_shrink _, ?_, rfl⟩
  intro h0
  unfold sb_shrink
  simp only []
  rw [if_pos h0]
  rfl

/-- Witness of C8: a bitset of three zero bytes with counter 0. -/
theorem C8_shrink_preserves_witness :
    I1 (some { buf := [0, 0, 0], size := 3, vx_cnt := 0 }) ∧
      size_bytes (sb_shrink (some { buf := [0, 0, 0], size := 3, vx_cnt := 0 })) = 0 :=
  ⟨by decide,
    (C8_shrink_preserves { buf := [0, 0, 0], size := 3, vx_cnt := 0 } (by decide)).2.2.1
      (by decide)⟩

/-- C9: reads of absent data are defined and return 0: `sb_test` and `sb_popcount` of
a null handle are 0; `sb_test(b, i)` is 0 when `i / 8` is at or beyond `size_bytes`,
whatever the buffer holds there; `sb_clear` of a null handle changes nothing; and
`sb_test` always returns 0 or 1. -/
theorem C9_absent_reads :
    (∀ i, sb_test none i = 0) ∧ sb_popcount none = 0 ∧
    (∀ (v : srt_bitset) (i : Nat), size_bytes (some v) ≤ i / 8 → sb_test (some v) i = 0) ∧
    sb_clear none = none ∧
    (∀ b i, sb_test b i = 0 ∨ sb_test b i = 1) := by
  refine ⟨fun _ => rfl, rfl, ?_, rfl, sb_test_zero_or_one⟩
  intro v i h
  rw [sb_test_some, if_neg]
  intro hc
  have : v.size ≤ i / 8 := h
  omega

/-- Witness of C9: bit 9 of a one-byte bitset whose buffer holds a stale `0xff` in
byte 1. -/
theorem C9_absent_reads_witness : size_bytes (some stale) ≤ 9 / 8 ∧ sb_test (some stale) 9 = 0 :=
  ⟨by decide, C9_absent_reads.2.2.1 stale 9 (by decide)⟩

/-- C10, materialization: when no allocation fails, after `sb_set(b, i)` and likewise
after `sb_eval(b, i)`, `size_bytes` is the maximum of its value before and `i / 8 + 1`,
and `sb_capacity` is at least `i + 1` bits, for every handle (null included). -/
theorem C10_materialization (m : sv_mem) (b : Option srt_bitset) (i : Nat) (hw : WF b)
    (hok : sb_set_ok m b i) :
    size_bytes (sb_set m b i) = max (size_bytes b) (i / 8 + 1) ∧
    i + 1 ≤ sb_capacity (sb_set m b i) ∧
    size_bytes (sb_eval m b i) = max (size_bytes b) (i / 8 + 1) ∧
    i + 1 ≤ sb_capacity (sb_eval m b i) := by
  obtain ⟨h1, h2, h3⟩ := sb_set_size_capacity m b i hw hok
  obtain ⟨e1, e2⟩ := sb_eval_size_capacity m b i
  refine ⟨h1, sb_capacity_ge _ i h2 h3, ?_, ?_⟩
  · rw [e1, h1]
  · apply sb_capacity_ge _ i
    · rw [e2]; exact h2
    · rw [e2]; exact h3

/-- Witness of C10: `sb_eval` of bit 50 on a fresh bitset gives a capacity of at least
51 bits, and setting bit 100 one of at least 101 bits. -/
theorem C10_materialization_witness :
    (WF (sb_alloc mem_ff 0) ∧ sb_set_ok mem_ff (sb_alloc mem_ff 0) 50 ∧
      50 + 1 ≤ sb_capacity (sb_eval mem_ff (sb_alloc mem_ff 0) 50)) ∧
    (sb_set_ok mem_ff (sb_alloc mem_ff 0) 100 ∧
      100 + 1 ≤ sb_capacity (sb_set mem_ff (sb_alloc mem_ff 0) 100)) :=
  ⟨⟨by decide, by decide,
      (C10_materialization mem_ff (sb_alloc mem_ff 0) 50 (by decide) (by decide)).2.2.2⟩,
    ⟨by decide,
      (C10_materialization mem_ff (sb_alloc mem_ff 0) 100 (by decide) (by decide)).2.1⟩⟩

/-! ## Lemmas for allocation, reserve and size -/

theorem SB_BITS2BYTES_eq (n : Nat) :
    SB_BITS2BYTES n = spec_ceil_bytes n + (if n % 8 = 0 then 1 else 0) := by
  unfold SB_BITS2BYTES spec_ceil_bytes
  split <;> omega

theorem sv_reserve_granted (m : sv_mem) (v : srt_vector) (n : Nat)
    (h : n ≤ (sv_reserve m v n).2) : n ≤ v.buf.length ∨ sv_grants m n := by
  by_cases hc : n ≤ v.buf.length ∨ sv_grants m n
  · exact hc
  · rw [sv_reserve_fail m v n hc] at h
    exact Or.inl h

theorem size_bytes_set_bit (v : srt_bitset) (pos mask : Nat) :
    size_bytes (some (sb_set_bit v pos mask)) = v.size := sb_set_bit_size v pos mask

theorem size_bytes_set_le (m : sv_mem) (b : Option srt_bitset) (i : Nat) :
    size_bytes b ≤ size_bytes (sb_set m b i) := by
  cases b with
  | none => exact Nat.zero_le _
  | some v =>
    unfold sb_set
    simp only []
    by_cases hg : i / 8 + 1 > sv_size v
    · rw [if_pos hg]
      by_cases hgot : (sv_reserve m v (i / 8 + 1)).2 < i / 8 + 1
      · rw [if_pos hgot]
        show v.size ≤ (sv_reserve m v (i / 8 + 1)).1.size
        rw [(sv_reserve_frame m v _).1]
      · rw [if_neg hgot, size_bytes_set_bit]
        simp only [sv_set_size, sv_size] at *
        show v.size ≤ i / 8 + 1
        omega
    · rw [if_neg hg, size_bytes_set_bit]
      exact le_refl _

theorem size_bytes_reserve (m : sv_mem) (b : Option srt_bitset) (n : Nat) :
    size_bytes (sb_reserve m b n).1 = size_bytes b := by
  cases b with
  | none => rfl
  | some v => exact (sv_reserve_frame m v _).1

theorem size_bytes_shrink (b : Option srt_bitset) :
    size_bytes (sb_shrink b) = if sb_popcount b = 0 then 0 else size_bytes b := by
  cases b with
  | none => simp [sb_shrink, size_bytes]
  | some v =>
    unfold sb_shrink
    simp only []
    split <;> rfl

theorem sb_reserve_some (m : sv_mem) (v : srt_bitset) (n : Nat) :
    sb_reserve m (some v) n =
      (some (sv_reserve m v (sb_reserve_bytes n)).1,
        ((sv_reserve m v (sb_reserve_bytes n)).2 * 8) % SIZE_MOD) := by
  unfold sb_reserve sb_reserve_bytes
  simp only []

theorem sb_set_fails_iff (m : sv_mem) (b : Option srt_bitset) (i : Nat) (hw : WF b) :
    sb_set_fails m b i ↔ ¬ sb_set_ok m b i := by
  cases b with
  | none =>
    unfold sb_set_fails sb_set_ok
    simp only [sv_capacity]
    constructor
    · intro h hok
      have hg : sv_grants m (i / 8 + 1) := hok.resolve_left (by omega)
      rw [sb_alloc_ok m i hg] at h
      exact Option.noConfusion h
    · intro h
      exact sb_alloc_fail m i (fun hg => h (Or.inr hg))
  | some v =>
    unfold sb_set_fails sb_set_ok
    simp only [sv_capacity]
    constructor
    · intro h hok
      have h1 := (sv_reserve_ok m v (i / 8 + 1) hw.2.1 hok).1
      rw [← sv_reserve_snd] at h1
      omega
    · intro h
      rw [sv_reserve_fail m v _ h]
      have : ¬ (i / 8 + 1 ≤ v.buf.length) := fun h1 => h (Or.inl h1)
      simp only []
      omega

theorem sb_set_of_test_one (m : sv_mem) (v : srt_bitset) (i : Nat)
    (h : sb_test (some v) i = 1) : sb_set m (some v) i = some v := by
  rw [sb_test_some] at h
  have hc : i / 8 < v.size ∧ (v.buf.getD (i / 8) 0).testBit (i % 8) = true := by
    by_contra hn
    rw [if_neg hn] at h
    omega
  unfold sb_set
  simp only [sv_size]
  rw [if_neg (by omega)]
  unfold sb_set_bit
  simp only [sv_get_buffer, Nat.one_shiftLeft]
  have hz : ¬ (v.buf.getD (i / 8) 0 &&& 2 ^ (i % 8) = 0) := by
    rw [land_two_pow_eq_zero_iff, hc.2]
    exact Bool.noConfusion
  rw [if_neg hz]

theorem sb_reset_of_test_zero (b : Option srt_bitset) (i : Nat) (h : sb_test b i = 0) :
    sb_reset b i = b := by
  cases b with
  | none => rfl
  | some v =>
    rw [sb_test_some] at h
    unfold sb_reset
    simp only [sv_size, sv_get_buffer, Nat.one_shiftLeft]
    by_cases hp : i / 8 < v.size
    · rw [if_pos hp]
      have hb : (v.buf.getD (i / 8) 0).testBit (i % 8) = false := by
        by_contra hn
        rw [Bool.not_eq_false] at hn
        rw [if_pos ⟨hp, hn⟩] at h
        omega
      have hz : v.buf.getD (i / 8) 0 &&& 2 ^ (i % 8) = 0 :=
        (land_two_pow_eq_zero_iff _ _).2 hb
      rw [if_neg (by simpa using hz)]
    · rw [if_neg hp]

theorem sb_eval_fail (m : sv_mem) (b : Option srt_bitset) (i : Nat) (hw : WF b)
    (hok : ¬ sb_set_ok m b i) : sb_eval m b i = b := by
  unfold sb_eval
  simp only []
  rw [sb_set_fail m b i hw hok]
  split
  · rename_i h0; exact sb_reset_of_test_zero b i h0
  · rfl

theorem sb_test_zero_of_set_fail (m : sv_mem) (b : Option srt_bitset) (i : Nat) (hw : WF b)
    (hok : ¬ sb_set_ok m b i) : sb_test b i = 0 := by
  cases b with
  | none => rfl
  | some v =>
    have : ¬ (i / 8 + 1 ≤ v.buf.length) := fun h1 => hok (Or.inl h1)
    have hs := hw.1
    rw [sb_test_some, if_neg]
    intro hc
    omega

/-! ## The claims on allocation, reserve, size, failure and idempotence -/

/-- Counterexample to C11 as stated: for 8 bits (and for 0 bits) the byte count requested
by `sb_alloc` and `sb_alloca`, `SB_BITS2BYTES`, is not `ceil(initial_bits / 8)`: it is
2 (resp. 1) where the ceiling is 1 (resp. 0). -/
theorem C11_bits2bytes_counterexample :
    ¬ (SB_BITS2BYTES 8 = spec_ceil_bytes 8) ∧ ¬ (SB_BITS2BYTES 0 = spec_ceil_bytes 0) := by
  decide

/-- The parameter of `SB_BITS2BYTES` is not parenthesised: pasted into `(1 + n / 8)`, an
argument `8 + 8` yields 10 bytes and an argument `255 & 255` yields 0 bytes, where the
values 16 and 255 of these arguments call for 3 and 32 bytes. -/
theorem SB_BITS2BYTES_expand_compound :
    SB_BITS2BYTES_expand (sb_arg.add 8 8) = 10 ∧
    SB_BITS2BYTES (sb_arg.val (sb_arg.add 8 8)) = 3 ∧
    SB_BITS2BYTES_expand (sb_arg.band 255 255) = 0 ∧
    SB_BITS2BYTES (sb_arg.val (sb_arg.band 255 255)) = 32 := by
  decide

/-- C11 amended: for every `initial_bits` passed to `sb_alloc` or `sb_alloca` as a single
token or a parenthesised expression, the byte count requested from the vector, the
expansion of `SB_BITS2BYTES(initial_bits)`, is `initial_bits / 8 + 1` (rounded down): at
least `ceil(initial_bits / 8)`, equal to it when `initial_bits` is not a multiple of 8
and one more when it is. -/
theorem C11_bits2bytes (m : sv_mem) (n : Nat) :
    SB_BITS2BYTES_expand (sb_arg.atom n) = SB_BITS2BYTES n ∧
    sb_alloc m n = sv_alloc m 1 (SB_BITS2BYTES_expand (sb_arg.atom n)) ∧
    sb_alloca m n = sv_alloca m 1 (SB_BITS2BYTES_expand (sb_arg.atom n)) ∧
    SB_BITS2BYTES_expand (sb_arg.atom n) = n / 8 + 1 ∧
    SB_BITS2BYTES_expand (sb_arg.atom n) = spec_ceil_bytes n + (if n % 8 = 0 then 1 else 0) ∧
    spec_ceil_bytes n ≤ SB_BITS2BYTES_expand (sb_arg.atom n) := by
  have e : SB_BITS2BYTES_expand (sb_arg.atom n) = SB_BITS2BYTES n := rfl
  refine ⟨e, rfl, rfl, ?_, ?_, ?_⟩
  · rw [e]; unfold SB_BITS2BYTES; omega
  · rw [e]; exact SB_BITS2BYTES_eq n
  · rw [e, SB_BITS2BYTES_eq]; omega

/-- C12, reserve monotonicity: for every (non-null) bitset and every `n`, when the
reserve of the vector succeeds (the bytes asked for are already there or the allocator
grants them), `sb_reserve(b, n)` requests `sb_reserve_bytes n` bytes, at least
`ceil(n / 8)`, the byte capacity afterwards is at least the request, the value returned
is `sb_capacity` after the call, that capacity is at least `n` bits, and it is not below
the capacity before the call. -/
theorem C12_reserve_monotone (m : sv_mem) (b : Option srt_bitset) (n : Nat) (hw : WF b)
    (hb : b ≠ none) (hok : sb_reserve_ok m b n) :
    spec_ceil_bytes n ≤ sb_reserve_bytes n ∧
    (∀ v, b = some v → (sb_reserve m b n).1 = some (sv_reserve m v (sb_reserve_bytes n)).1) ∧
    sb_reserve_bytes n ≤ sv_capacity (sb_reserve m b n).1 ∧
    (sb_reserve m b n).2 = sb_capacity (sb_reserve m b n).1 ∧
    n ≤ sb_capacity (sb_reserve m b n).1 ∧
    sb_capacity b ≤ sb_capacity (sb_reserve m b n).1 := by
  cases b with
  | none => exact absurd rfl hb
  | some v =>
    rw [sb_reserve_some]
    have hr := sv_reserve_ok m v (sb_reserve_bytes n) hw.2.1 hok
    have hs := sv_reserve_snd m v (sb_reserve_bytes n)
    have hv := hw.2.1
    have hM : SIZE_MOD = 8 * SV_MAX_BYTES := by simp [SIZE_MOD, SIZE_BITS, SV_MAX_BYTES]
    have hb2 : sb_reserve_bytes n = 1 + n / 8 := rfl
    have hcap : sb_capacity (some (sv_reserve m v (sb_reserve_bytes n)).1) =
        8 * (sv_reserve m v (sb_reserve_bytes n)).1.buf.length := by
      unfold sb_capacity
      simp only [sv_capacity]
      exact Nat.mod_eq_of_lt (by omega)
    have hcap0 : sb_capacity (some v) = 8 * v.buf.length := by
      unfold sb_capacity
      simp only [sv_capacity]
      exact Nat.mod_eq_of_lt (by omega)
    refine ⟨?_, ?_, hr.1, ?_, ?_, ?_⟩
    · unfold spec_ceil_bytes; omega
    · intro w hv2; cases hv2; rfl
    · simp only [hcap, hs]
      rw [Nat.mul_comm]
      exact Nat.mod_eq_of_lt (by omega)
    · simp only [hcap]; omega
    · simp only [hcap, hcap0]; omega

/-- Witness of C12: reserve for 1000 bits on the scenario bitset, whose 13 bytes do not
suffice, so the buffer is grown. -/
theorem C12_reserve_monotone_witness :
    WF scenario ∧ scenario ≠ none ∧ sb_reserve_ok mem_ff scenario 1000 ∧
      ¬ (sb_reserve_bytes 1000 ≤ sv_capacity scenario) ∧
      1000 ≤ sb_capacity (sb_reserve mem_ff scenario 1000).1 :=
  ⟨by decide, by decide, by decide, by decide,
    (C12_reserve_monotone mem_ff scenario 1000 (by decide) (by decide) (by decide)).2.2.2.2.1⟩

/-- C13: `sb_reserve` is a pure capacity operation: on a non-null bitset it leaves
`size_bytes`, `sb_popcount` and `sb_test` at every index as they were. -/
theorem C13_reserve_frame (m : sv_mem) (v : srt_bitset) (n i : Nat) (hw : WF (some v)) :
    size_bytes (sb_reserve m (some v) n).1 = size_bytes (some v) ∧
    sb_popcount (sb_reserve m (some v) n).1 = sb_popcount (some v) ∧
    sb_test (sb_reserve m (some v) n).1 i = sb_test (some v) i := by
  rw [sb_reserve_some]
  exact ⟨(sv_reserve_frame m v _).1, (sv_reserve_frame m v _).2.1,
    sb_test_reserve m v _ i hw.1⟩

/-- Witness of C13: reserve for 1000 bits on the scenario bitset keeps bit 100. -/
theorem C13_reserve_frame_witness :
    WF scenario ∧ sb_test (sb_reserve mem_ff scenario 1000).1 100 = sb_test scenario 100 :=
  ⟨by decide, (C13_reserve_frame mem_ff _ 1000 100 (by decide : WF scenario)).2.2⟩

/-- Counterexample to C14 as stated: on the valid bitset in which bit 3 was set and
reset (one materialized byte, no bit set), `sb_shrink`, which is not `sb_clear`, brings
`size_bytes` from 1 down to 0. -/
theorem C14_size_monotone_counterexample :
    Inv emptied ∧ size_bytes emptied = 1 ∧ size_bytes (sb_shrink emptied) = 0 ∧
      ¬ (size_bytes emptied ≤ size_bytes (sb_shrink emptied)) := by
  decide

/-- C14 amended (invariant I3): `sb_set`, `sb_reset`, `sb_eval` and `sb_reserve`, with any
argument, never decrease `size_bytes`; `sb_shrink` leaves `size_bytes` as it is when
`sb_popcount` is not 0 and resets it to 0 when `sb_popcount` is 0; `sb_clear` resets it
to 0. -/
theorem C14_size_monotone (m : sv_mem) (b : Option srt_bitset) (i : Nat) :
    size_bytes b ≤ size_bytes (sb_set m b i) ∧
    size_bytes (sb_reset b i) = size_bytes b ∧
    size_bytes b ≤ size_bytes (sb_eval m b i) ∧
    size_bytes (sb_reserve m b i).1 = size_bytes b ∧
    size_bytes (sb_shrink b) = (if sb_popcount b = 0 then 0 else size_bytes b) ∧
    size_bytes (sb_clear b) = 0 := by
  refine ⟨size_bytes_set_le m b i, size_bytes_reset b i, ?_, size_bytes_reserve m b i,
    size_bytes_shrink b, ?_⟩
  · rw [(sb_eval_size_capacity m b i).1]; exact size_bytes_set_le m b i
  · cases b <;> rfl

/-- C15, atomicity on allocation failure: when the allocation of `sb_set(b, i)` fails
(`sv_reserve` returns less than `i / 8 + 1` bytes for an existing bitset, `sb_alloc`
returns null for a null handle), `sb_set` and likewise `sb_eval` return the handle as it
was, so `size_bytes`, `sb_popcount` and `sb_test` at every index are unchanged, a null
handle stays null, and bit `i` is not set. -/
theorem C15_failure_atomic (m : sv_mem) (b : Option srt_bitset) (i : Nat) (hw : WF b)
    (hfail : sb_set_fails m b i) :
    sb_set m b i = b ∧ sb_eval m b i = b ∧ sb_test (sb_set m b i) i = 0 ∧
    sb_test (sb_eval m b i) i = 0 := by
  have hok := (sb_set_fails_iff m b i hw).1 hfail
  have h0 := sb_test_zero_of_set_fail m b i hw hok
  refine ⟨sb_set_fail m b i hw hok, sb_eval_fail m b i hw hok, ?_, ?_⟩
  · rw [sb_set_fail m b i hw hok]; exact h0
  · rw [sb_eval_fail m b i hw hok]; exact h0

/-- Witness of C15: no memory is left when bit 200 is set on the scenario bitset (13
bytes), and when bit 7 is set through a null handle. -/
theorem C15_failure_atomic_witness :
    (WF scenario ∧ sb_set_fails mem_none scenario 200 ∧
      sb_set mem_none scenario 200 = scenario) ∧
    (sb_set_fails mem_none none 7 ∧ sb_set mem_none none 7 = none) :=
  ⟨⟨by decide, by decide,
      (C15_failure_atomic mem_none scenario 200 (by decide) (by decide)).1⟩,
    ⟨by decide, (C15_failure_atomic mem_none none 7 (by decide) (by decide)).1⟩⟩

/-- Counterexample to C16 as stated: on the scenario bitset (popcount 3, 13 bytes), a
first `sb_set` of bit 200 whose allocation fails leaves popcount 3 and bit 200 at 0; a
second one whose allocation succeeds gives popcount 4 and bit 200 at 1. -/
theorem C16_idempotent_counterexample :
    Inv scenario ∧
    sb_popcount (sb_set mem_none scenario 200) = 3 ∧
    sb_popcount (sb_set mem_ff (sb_set mem_none scenario 200) 200) = 4 ∧
    sb_test (sb_set mem_none scenario 200) 200 = 0 ∧
    sb_test (sb_set mem_ff (sb_set mem_none scenario 200) 200) 200 = 1 ∧
    ¬ (sb_popcount (sb_set mem_ff (sb_set mem_none scenario 200) 200) =
        sb_popcount (sb_set mem_none scenario 200)) := by
  decide

/-- C16 amended, idempotence: a second `sb_set(b, i)` returns the bitset of the first
one, so `sb_popcount`, `size_bytes` and `sb_test` at every index are those after one
call, exactly when it is not the case that the allocation of the first call fails and
that of the second succeeds; in particular when both calls get the same answer from the
allocator; a second `sb_reset(b, i)` always returns the bitset of the first one. -/
theorem C16_idempotent (m m2 : sv_mem) (b : Option srt_bitset) (i : Nat) (hw : WF b) :
    sb_set m (sb_set m b i) i = sb_set m b i ∧
    (sb_set m2 (sb_set m b i) i = sb_set m b i ↔ (sb_set_ok m b i ∨ ¬ sb_set_ok m2 b i)) ∧
    sb_reset (sb_reset b i) i = sb_reset b i := by
  have hsucc : ∀ m3 : sv_mem, sb_set_ok m b i → sb_set m3 (sb_set m b i) i = sb_set m b i := by
    intro m3 hok
    obtain ⟨w, e, _, _, _, _, h5, _⟩ := sb_set_spec m b i hw hok
    rw [e]
    exact sb_set_of_test_one m3 w i (by rw [h5, if_pos rfl])
  refine ⟨?_, ⟨?_, ?_⟩, ?_⟩
  · by_cases hok : sb_set_ok m b i
    · exact hsucc m hok
    · rw [sb_set_fail m b i hw hok, sb_set_fail m b i hw hok]
  · intro h
    by_contra hn
    have h1 : ¬ sb_set_ok m b i := fun hc => hn (Or.inl hc)
    have h2 : sb_set_ok m2 b i := by
      by_contra hc
      exact hn (Or.inr hc)
    rw [sb_set_fail m b i hw h1] at h
    obtain ⟨w, e, _, _, _, _, h5, _⟩ := sb_set_spec m2 b i hw h2
    have h0 := sb_test_zero_of_set_fail m b i hw h1
    have h5i := h5 i
    rw [if_pos rfl, ← e, h, h0] at h5i
    omega
  · intro h
    rcases h with h | h
    · exact hsucc m2 h
    · by_cases hok : sb_set_ok m b i
      · exact hsucc m2 hok
      · rw [sb_set_fail m b i hw hok, sb_set_fail m2 b i hw h]
  · exact sb_reset_of_test_zero _ i (by rw [sb_test_reset_all b i i hw, if_pos rfl])

/-- Witness of C16 on the scenario bitset: bit 200 set twice, with growth at the first
call. -/
theorem C16_idempotent_witness :
    WF scenario ∧ sb_set_ok mem_ff scenario 200 ∧
      sb_set mem_none (sb_set mem_ff scenario 200) 200 = sb_set mem_ff scenario 200 :=
  ⟨by decide, by decide,
    (C16_idempotent mem_ff mem_none scenario 200 (by decide)).2.1.2 (Or.inl (by decide))⟩

/-! ## Sequences of calls -/

theorem bits_of_test_zero (b : Option srt_bitset) (h : ∀ j, sb_test b j = 0) : bits b = ∅ := by
  ext j
  rw [mem_bits, h]
  simp

theorem sb_test_clear (b : Option srt_bitset) (j : Nat) : sb_test (sb_clear b) j = 0 := by
  cases b with
  | none => rfl
  | some v => simp [sb_clear, sb_test_some, sv_set_size]

theorem sb_test_reserve_all (m : sv_mem) (b : Option srt_bitset) (n j : Nat) (hw : WF b) :
    sb_test (sb_reserve m b n).1 j = sb_test b j := by
  cases b with
  | none => rfl
  | some v => rw [sb_reserve_some]; exact sb_test_reserve m v _ j hw.1

theorem sb_step_refines (b : Option srt_bitset) (op : sb_op) (h : Inv b) (hok : sb_op_ok b op) :
    Inv (sb_step b op) ∧ bits (sb_step b op) = spec_set_step (bits b) op := by
  cases op with
  | set m i =>
    refine ⟨Inv_set m b i h, ?_⟩
    obtain ⟨w, e, _, _, _, _, h5, _⟩ := sb_set_spec m b i h.1 hok
    show bits (sb_set m b i) = insert i (bits b)
    rw [e]
    exact bits_insert b (some w) i h5
  | reset i =>
    exact ⟨Inv_reset b i h, bits_erase b (sb_reset b i) i (fun j => sb_test_reset_all b i j h.1)⟩
  | clear =>
    exact ⟨Inv_clear b h, bits_of_test_zero _ (sb_test_clear b)⟩
  | eval m i =>
    exact ⟨Inv_eval m b i h,
      bits_congr b (sb_eval m b i) (fun j => (sb_eval_test_popcount m b i j h.1).1)⟩
  | reserve m n =>
    exact ⟨Inv_reserve m b n h,
      bits_congr b (sb_reserve m b n).1 (fun j => sb_test_reserve_all m b n j h.1)⟩
  | shrink =>
    exact ⟨Inv_shrink b h, bits_congr b (sb_shrink b) (fun j => sb_test_shrink b h.2 j)⟩

theorem Inv_step (b : Option srt_bitset) (op : sb_op) (h : Inv b) : Inv (sb_step b op) := by
  cases op with
  | set m i => exact Inv_set m b i h
  | reset i => exact Inv_reset b i h
  | clear => exact Inv_clear b h
  | eval m i => exact Inv_eval m b i h
  | reserve m n => exact Inv_reserve m b n h
  | shrink => exact Inv_shrink b h

theorem Inv_run (ops : List sb_op) : ∀ b : Option srt_bitset, Inv b → Inv (sb_run b ops) := by
  induction ops with
  | nil => intro b h; exact h
  | cons op ops ih => intro b h; exact ih (sb_step b op) (Inv_step b op h)

theorem sb_run_refines (ops : List sb_op) : ∀ b : Option srt_bitset, Inv b → sb_run_ok b ops →
    Inv (sb_run b ops) ∧ bits (sb_run b ops) = spec_set_run (bits b) ops := by
  induction ops with
  | nil => intro b h _; exact ⟨h, rfl⟩
  | cons op ops ih =>
    intro b h hok
    obtain ⟨h1, h2⟩ := sb_step_refines b op h hok.1
    have := ih (sb_step b op) h1 hok.2
    rw [h2] at this
    exact this

theorem Inv_none : Inv none := ⟨trivial, rfl⟩

theorem bits_fresh (b : Option srt_bitset) (h : b = none ∨ ∃ m n, b = sb_alloc m n) :
    Inv b ∧ bits b = ∅ := by
  have hsz : size_bytes b = 0 := by
    rcases h with h | ⟨m, n, h⟩
    · rw [h]; rfl
    · rw [h]
      unfold sb_alloc sv_alloc
      split <;> rfl
  have hI : Inv b := by
    rcases h with h | ⟨m, n, h⟩
    · rw [h]; exact Inv_none
    · rw [h]; exact Inv_alloc m n
  refine ⟨hI, bits_of_test_zero b (fun j => ?_)⟩
  rcases sb_test_zero_or_one b j with h0 | h1
  · exact h0
  · have := sb_test_eq_one_lt b j h1
    omega

theorem sb_reset_decrements_iff (b : Option srt_bitset) (i : Nat) :
    sb_reset_decrements b i ↔ sb_test b i = 1 := by
  cases b with
  | none => simp [sb_reset_decrements, sb_test]
  | some v =>
    unfold sb_reset_decrements
    simp only [sv_size, sv_get_buffer, Nat.one_shiftLeft, ne_eq]
    rw [sb_test_some, land_two_pow_eq_zero_iff, Bool.not_eq_false]
    constructor
    · intro h; rw [if_pos h]
    · intro h
      by_contra hn
      rw [if_neg hn] at h
      omega

theorem popcount_zero_iff (b : Option srt_bitset) (h : Inv b) :
    sb_popcount b = 0 ↔ ∀ i, sb_test b i = 0 := by
  constructor
  · intro h0 i; exact sb_test_zero_of_popcount b h.2 h0 i
  · intro hz
    rw [(I1_iff b).1 h.2, bits_of_test_zero b hz]
    rfl

theorem popcount_le_bits (b : Option srt_bitset) (h : Inv b) :
    sb_popcount b ≤ 8 * size_bytes b ∧ 8 * size_bytes b + 8 ≤ SIZE_MOD := by
  have hM : SIZE_MOD = 8 * SV_MAX_BYTES := by simp [SIZE_MOD, SIZE_BITS, SV_MAX_BYTES]
  refine ⟨?_, ?_⟩
  · rw [(I1_iff b).1 h.2]; exact card_bits_le b
  · cases b with
    | none => simp [size_bytes, SIZE_MOD, SIZE_BITS]
    | some v =>
      have h1 := h.1.1
      have h2 := h.1.2.1
      simp only [size_bytes, sv_size]
      omega

theorem popcount_pos_of_test (b : Option srt_bitset) (h : Inv b) (i : Nat)
    (ht : sb_test b i = 1) : 1 ≤ sb_popcount b := by
  rw [(I1_iff b).1 h.2]
  exact Finset.card_pos.2 ⟨i, (mem_bits b i).2 ht⟩

theorem sb_set_cnt_mod (m : sv_mem) (b : Option srt_bitset) (i : Nat) (hw : WF b)
    (hok : sb_set_ok m b i) :
    sb_popcount (sb_set m b i) = (sb_popcount b + (1 - sb_test b i)) % SIZE_MOD := by
  obtain ⟨w, e, _, _, _, _, _, h6⟩ := sb_set_spec m b i hw hok
  rw [e, sb_popcount_some, h6]
  rcases sb_test_zero_or_one b i with h0 | h1
  · rw [h0, if_neg (by omega)]
  · rw [h1, if_pos rfl]
    exact (Nat.mod_eq_of_lt (sb_popcount_lt b hw)).symm

/-! ## The claims on sequences of calls -/

/-- C18, refinement of a finite set: start from a freshly allocated or null bitset and
from the empty set, and apply any finite sequence of set, reset, clear, eval, reserve,
shrink in which no allocation of a set fails, updating the set by insert, erase, empty
and nothing respectively; then `sb_test` is 1 exactly at the members of the set and
`sb_popcount` is its cardinality. -/
theorem C18_refines_finset (b0 : Option srt_bitset) (ops : List sb_op)
    (h0 : b0 = none ∨ ∃ m n, b0 = sb_alloc m n) (hok : sb_run_ok b0 ops) (j : Nat) :
    (sb_test (sb_run b0 ops) j = 1 ↔ j ∈ spec_set_run ∅ ops) ∧
    sb_popcount (sb_run b0 ops) = (spec_set_run ∅ ops).card := by
  obtain ⟨hI, hb⟩ := bits_fresh b0 h0
  obtain ⟨h1, h2⟩ := sb_run_refines ops b0 hI hok
  rw [hb] at h2
  refine ⟨?_, ?_⟩
  · rw [← h2, mem_bits]
  · rw [← h2]; exact (I1_iff _).1 h1.2

/-- Witness of C18: the scenario followed by a reset of bit 5 and a shrink, observed at
bit 100. -/
theorem C18_refines_finset_witness :
    sb_run_ok (sb_alloc mem_ff 0) scenario_ops ∧
    (sb_test (sb_run (sb_alloc mem_ff 0) scenario_ops) 100 = 1 ↔
      100 ∈ spec_set_run ∅ scenario_ops) ∧
    sb_popcount (sb_run (sb_alloc mem_ff 0) scenario_ops) = (spec_set_run ∅ scenario_ops).card :=
  ⟨by decide,
    C18_refines_finset (sb_alloc mem_ff 0) scenario_ops (Or.inr ⟨mem_ff, 0, rfl⟩) (by decide) 100⟩

/-- C19: `sb_set` commutes observationally: when no allocation fails, setting `i` then
`j` and setting `j` then `i` give the same `size_bytes`, the same `sb_popcount` and the
same `sb_test` at every index, whatever the two orders make `size_bytes` grow by. -/
theorem C19_set_commute (m1 m2 m3 m4 : sv_mem) (b : Option srt_bitset) (i j : Nat) (hw : WF b)
    (h1 : sb_set_ok m1 b i) (h2 : sb_set_ok m2 (sb_set m1 b i) j)
    (h3 : sb_set_ok m3 b j) (h4 : sb_set_ok m4 (sb_set m3 b j) i) :
    size_bytes (sb_set m2 (sb_set m1 b i) j) = size_bytes (sb_set m4 (sb_set m3 b j) i) ∧
    sb_popcount (sb_set m2 (sb_set m1 b i) j) = sb_popcount (sb_set m4 (sb_set m3 b j) i) ∧
    ∀ k, sb_test (sb_set m2 (sb_set m1 b i) j) k = sb_test (sb_set m4 (sb_set m3 b j) i) k := by
  have hwi := WF_set m1 b i hw
  have hwj := WF_set m3 b j hw
  have ti : ∀ k, sb_test (sb_set m1 b i) k = if k = i then 1 else sb_test b k := by
    intro k
    obtain ⟨w, e, _, _, _, _, h5, _⟩ := sb_set_spec m1 b i hw h1
    rw [e, h5]
  have tj : ∀ k, sb_test (sb_set m3 b j) k = if k = j then 1 else sb_test b k := by
    intro k
    obtain ⟨w, e, _, _, _, _, h5, _⟩ := sb_set_spec m3 b j hw h3
    rw [e, h5]
  have tij : ∀ k, sb_test (sb_set m2 (sb_set m1 b i) j) k =
      if k = j then 1 else sb_test (sb_set m1 b i) k := by
    intro k
    obtain ⟨w, e, _, _, _, _, h5, _⟩ := sb_set_spec m2 _ j hwi h2
    rw [e, h5]
  have tji : ∀ k, sb_test (sb_set m4 (sb_set m3 b j) i) k =
      if k = i then 1 else sb_test (sb_set m3 b j) k := by
    intro k
    obtain ⟨w, e, _, _, _, _, h5, _⟩ := sb_set_spec m4 _ i hwj h4
    rw [e, h5]
  refine ⟨?_, ?_, ?_⟩
  · rw [(sb_set_size_capacity m2 _ j hwi h2).1, (sb_set_size_capacity m1 b i hw h1).1,
      (sb_set_size_capacity m4 _ i hwj h4).1, (sb_set_size_capacity m3 b j hw h3).1]
    omega
  · rw [sb_set_cnt_mod m2 _ j hwi h2, sb_set_cnt_mod m1 b i hw h1,
      sb_set_cnt_mod m4 _ i hwj h4, sb_set_cnt_mod m3 b j hw h3, ti j, tj i,
      Nat.mod_add_mod, Nat.mod_add_mod]
    congr 1
    by_cases hij : i = j
    · subst hij; rfl
    · have hji : ¬ j = i := fun h => hij h.symm
      rw [if_neg hji, if_neg hij]
      omega
  · intro k
    rw [tij, tji, ti, tj]
    by_cases hki : k = i <;> by_cases hkj : k = j <;> simp [hki, hkj]

/-- Witness of C19 on a fresh bitset: bits 3 and 100, which grow `size_bytes` to 1 and
to 13 bytes. -/
theorem C19_set_commute_witness :
    WF (sb_alloc mem_ff 0) ∧
    sb_popcount (sb_set mem_ff (sb_set mem_ff (sb_alloc mem_ff 0) 3) 100) =
      sb_popcount (sb_set mem_ff (sb_set mem_ff (sb_alloc mem_ff 0) 100) 3) :=
  ⟨by decide,
    (C19_set_commute mem_ff mem_ff mem_ff mem_ff (sb_alloc mem_ff 0) 3 100 (by decide)
      (by decide) (by decide) (by decide) (by decide)).2.1⟩

/-- C20, the counter never wraps: in every state reachable from a fresh bitset by set,
reset, clear, eval, reserve and shrink, `sb_popcount` is at most `8 * size_bytes`, which
is below the range of `size_t`, so an increment cannot overflow; the decrement of
`sb_reset` is executed only when `sb_popcount` is at least 1 and then lowers it by
exactly 1; and `sb_popcount` is 0 exactly when `sb_test` is 0 at every index. -/
theorem C20_counter_never_wraps (b : Option srt_bitset) (hr : Reachable b) (i : Nat) :
    sb_popcount b ≤ 8 * size_bytes b ∧
    sb_popcount b + 1 < SIZE_MOD ∧
    (sb_reset_decrements b i →
      1 ≤ sb_popcount b ∧ sb_popcount (sb_reset b i) + 1 = sb_popcount b) ∧
    (sb_popcount b = 0 ↔ ∀ k, sb_test b k = 0) := by
  obtain ⟨m, n, ops, e⟩ := hr
  have hI : Inv b := by rw [e]; exact Inv_run ops _ (Inv_alloc m n)
  have hle := popcount_le_bits b hI
  refine ⟨hle.1, by omega, ?_, popcount_zero_iff b hI⟩
  intro hd
  have ht := (sb_reset_decrements_iff b i).1 hd
  have hpos := popcount_pos_of_test b hI i ht
  refine ⟨hpos, ?_⟩
  rw [sb_popcount_reset_all, if_pos ht, mod_dec _ _ (by omega) (sb_popcount_lt b hI.1)]
  omega

/-- Witness of C20 on the scenario bitset, whose bit 5 is set. -/
theorem C20_counter_never_wraps_witness :
    sb_reset_decrements scenario 5 ∧ 1 ≤ sb_popcount scenario ∧
      sb_popcount (sb_reset scenario 5) + 1 = sb_popcount scenario :=
  ⟨by decide,
    (C20_counter_never_wraps scenario
      ⟨mem_ff, 0, [sb_op.set mem_ff 3, sb_op.set mem_ff 5, sb_op.set mem_ff 100], rfl⟩ 5).2.2.1
      (by decide)⟩

/-! ## Bounds-checked execution agrees with the plain one -/

theorem buf_rd_of_lt (buf : List Nat) (pos : Nat) (h : pos < buf.length) :
    buf_rd buf pos = some (buf.getD pos 0) := by
  unfold buf_rd
  simp [List.getD_eq_getElem?_getD, List.getElem?_eq_getElem h]

theorem buf_wr_of_lt (buf : List Nat) (pos x : Nat) (h : pos < buf.length) :
    buf_wr buf pos x = some (buf.set pos x) := by
  unfold buf_wr
  rw [if_pos h]

theorem memset_chk_eq (n : Nat) : ∀ (buf : List Nat) (off c : Nat), off + n ≤ buf.length →
    ∃ tr, memset_chk buf off c n = some (memset buf off c n, tr) ∧
      ∀ a ∈ tr, ∃ p, a = sb_access.zero p ∧ off ≤ p ∧ p < off + n := by
  induction n with
  | zero =>
    intro buf off c _
    exact ⟨[], rfl, fun a ha => absurd ha (List.not_mem_nil a)⟩
  | succ n ih =>
    intro buf off c h
    obtain ⟨tr, e, htr⟩ := ih (buf.set off c) (off + 1) c (by rw [List.length_set]; omega)
    refine ⟨sb_access.zero off :: tr, ?_, ?_⟩
    · simp only [memset_chk, memset]
      rw [buf_wr_of_lt buf off c (by omega)]
      simp only [e]
    · intro a ha
      rcases List.mem_cons.1 ha with h1 | h1
      · exact ⟨off, h1, le_refl _, by omega⟩
      · obtain ⟨p, hp, h2, h3⟩ := htr a h1
        exact ⟨p, hp, by omega, by omega⟩

theorem sb_set_bit_chk_eq (v : srt_bitset) (pos mask : Nat) (h : pos < v.buf.length) :
    ∃ tr, sb_set_bit_chk v pos mask = some (sb_set_bit v pos mask, tr) ∧
      ∀ a ∈ tr, a = sb_access.rd pos ∨ a = sb_access.wr pos := by
  unfold sb_set_bit_chk sb_set_bit
  simp only [sv_get_buffer]
  rw [buf_rd_of_lt v.buf pos h]
  simp only []
  by_cases hz : v.buf.getD pos 0 &&& mask = 0
  · rw [if_pos hz, if_pos hz, buf_wr_of_lt v.buf pos _ h]
    refine ⟨_, rfl, ?_⟩
    intro a ha
    simp only [List.mem_cons, List.mem_singleton, List.not_mem_nil, or_false] at ha
    exact ha
  · rw [if_neg hz, if_neg hz]
    refine ⟨_, rfl, ?_⟩
    intro a ha
    simp only [List.mem_singleton] at ha
    exact Or.inl ha

theorem sb_test_chk_eq (b : Option srt_bitset) (i : Nat) (hw : size_bytes b ≤ sv_capacity b) :
    ∃ tr, sb_test_chk b i = some (sb_test b i, tr) ∧
      ∀ a ∈ tr, a = sb_access.rd (i / 8) ∧ i / 8 < size_bytes b ∧ i / 8 < sv_capacity b := by
  cases b with
  | none => exact ⟨[], rfl, fun a ha => absurd ha (List.not_mem_nil a)⟩
  | some v =>
    have hw1 : v.size ≤ v.buf.length := hw
    unfold sb_test_chk sb_test
    simp only [sv_size, sv_get_buffer, ge_iff_le]
    by_cases hp : v.size ≤ i / 8
    · rw [if_pos hp, if_pos hp]
      exact ⟨[], rfl, fun a ha => absurd ha (List.not_mem_nil a)⟩
    · rw [if_neg hp, if_neg hp, buf_rd_of_lt v.buf (i / 8) (by omega)]
      refine ⟨_, rfl, ?_⟩
      intro a ha
      simp only [List.mem_singleton] at ha
      refine ⟨ha, ?_, ?_⟩
      · show i / 8 < v.size; omega
      · show i / 8 < v.buf.length; omega

theorem sb_reset_chk_eq (b : Option srt_bitset) (i : Nat) (hw : size_bytes b ≤ sv_capacity b) :
    ∃ tr, sb_reset_chk b i = some (sb_reset b i, tr) ∧
      ∀ a ∈ tr, sb_access.off a = i / 8 ∧ i / 8 < size_bytes b ∧ i / 8 < sv_capacity b := by
  cases b with
  | none => exact ⟨[], rfl, fun a ha => absurd ha (List.not_mem_nil a)⟩
  | some v =>
    have hw1 : v.size ≤ v.buf.length := hw
    unfold sb_reset_chk sb_reset
    simp only [sv_size, sv_get_buffer]
    by_cases hp : i / 8 < v.size
    · have hlen : i / 8 < v.buf.length := by omega
      have hb : i / 8 < size_bytes (some v) ∧ i / 8 < sv_capacity (some v) := ⟨hp, hlen⟩
      rw [if_pos hp, if_pos hp, buf_rd_of_lt v.buf (i / 8) hlen]
      simp only []
      by_cases hz : v.buf.getD (i / 8) 0 &&& 1 <<< (i % 8) ≠ 0
      · rw [if_pos hz, if_pos hz, buf_wr_of_lt v.buf (i / 8) _ hlen]
        refine ⟨_, rfl, ?_⟩
        intro a ha
        simp only [List.mem_cons, List.mem_singleton, List.not_mem_nil, or_false] at ha
        rcases ha with h1 | h1 <;> rw [h1] <;> exact ⟨rfl, hb⟩
      · rw [if_neg hz, if_neg hz]
        refine ⟨_, rfl, ?_⟩
        intro a ha
        simp only [List.mem_singleton] at ha
        rw [ha]; exact ⟨rfl, hb⟩
    · rw [if_neg hp, if_neg hp]
      exact ⟨[], rfl, fun a ha => absurd ha (List.not_mem_nil a)⟩

theorem sb_set_chk_some (m : sv_mem) (v : srt_bitset) (i : Nat) (hw : v.size ≤ v.buf.length) :
    ∃ tr, sb_set_chk m (some v) i = some (sb_set m (some v) i, tr) ∧
      ∀ a ∈ tr, sb_access.off a < sv_capacity (sb_set m (some v) i) ∧
        sb_set_access_ok v.size i a := by
  have hf := sv_reserve_frame m v (i / 8 + 1)
  have hs := sv_reserve_snd m v (i / 8 + 1)
  unfold sb_set_chk sb_set
  simp only [sv_size, sv_get_buffer]
  by_cases hg : i / 8 + 1 > v.size
  · rw [if_pos hg, if_pos hg]
    by_cases hgot : (sv_reserve m v (i / 8 + 1)).2 < i / 8 + 1
    · rw [if_pos hgot, if_pos hgot]
      exact ⟨[], rfl, fun a ha => absurd ha (List.not_mem_nil a)⟩
    · rw [if_neg hgot, if_neg hgot]
      have hlen : i / 8 + 1 ≤ (sv_reserve m v (i / 8 + 1)).1.buf.length := by omega
      obtain ⟨tr0, e0, h0⟩ := memset_chk_eq (i / 8 + 1 - (sv_reserve m v (i / 8 + 1)).1.size)
        (sv_reserve m v (i / 8 + 1)).1.buf (sv_reserve m v (i / 8 + 1)).1.size 0
        (by rw [hf.1]; omega)
      obtain ⟨tr, e, h⟩ := sb_set_bit_chk_eq
        (sv_set_size { (sv_reserve m v (i / 8 + 1)).1 with
          buf := memset (sv_reserve m v (i / 8 + 1)).1.buf (sv_reserve m v (i / 8 + 1)).1.size 0
            (i / 8 + 1 - (sv_reserve m v (i / 8 + 1)).1.size) } (i / 8 + 1))
        (i / 8) (1 <<< (i % 8))
        (by simp only [sv_set_size, length_memset]; omega)
      rw [e0]
      simp only []
      rw [e]
      refine ⟨tr0 ++ tr, rfl, ?_⟩
      intro a ha
      have hcap : sv_capacity (some (sb_set_bit
          (sv_set_size { (sv_reserve m v (i / 8 + 1)).1 with
            buf := memset (sv_reserve m v (i / 8 + 1)).1.buf (sv_reserve m v (i / 8 + 1)).1.size 0
              (i / 8 + 1 - (sv_reserve m v (i / 8 + 1)).1.size) } (i / 8 + 1))
          (i / 8) (1 <<< (i % 8)))) = (sv_reserve m v (i / 8 + 1)).1.buf.length := by
        simp only [sv_capacity, sb_set_bit_length, sv_set_size, length_memset]
      rw [hcap]
      rcases List.mem_append.1 ha with h1 | h1
      · obtain ⟨p, hp, h2, h3⟩ := h0 a h1
        rw [hf.1] at h2 h3
        rw [hp]
        exact ⟨by show p < _; omega, by show v.size ≤ p ∧ p < i / 8 + 1; omega⟩
      · rcases h a h1 with h2 | h2 <;> rw [h2]
        · exact ⟨by show i / 8 < _; omega, rfl⟩
        · exact ⟨by show i / 8 < _; omega, rfl⟩
  · rw [if_neg hg, if_neg hg]
    obtain ⟨tr, e, h⟩ := sb_set_bit_chk_eq v (i / 8) (1 <<< (i % 8)) (by omega)
    rw [e]
    refine ⟨tr, rfl, ?_⟩
    intro a ha
    have hcap : sv_capacity (some (sb_set_bit v (i / 8) (1 <<< (i % 8)))) = v.buf.length := by
      simp only [sv_capacity, sb_set_bit_length]
    rw [hcap]
    rcases h a ha with h2 | h2 <;> rw [h2]
    · exact ⟨by show i / 8 < _; omega, rfl⟩
    · exact ⟨by show i / 8 < _; omega, rfl⟩

theorem sb_set_chk_none (m : sv_mem) (i : Nat) :
    sb_set_chk m none i =
      match sb_alloc m i with
      | none => some (none, [])
      | some v => sb_set_chk m (some v) i := by
  unfold sb_set_chk
  cases sb_alloc m i <;> rfl

theorem sb_set_chk_eq (m : sv_mem) (b : Option srt_bitset) (i : Nat)
    (hw : size_bytes b ≤ sv_capacity b) :
    ∃ tr, sb_set_chk m b i = some (sb_set m b i, tr) ∧
      ∀ a ∈ tr, sb_access.off a < sv_capacity (sb_set m b i) ∧
        sb_set_access_ok (size_bytes b) i a := by
  cases b with
  | some v => exact sb_set_chk_some m v i hw
  | none =>
    rw [sb_set_chk_none, sb_set_none]
    by_cases hg : sv_grants m (i / 8 + 1)
    · rw [sb_alloc_ok m i hg]
      exact sb_set_chk_some m _ i (Nat.zero_le _)
    · rw [sb_alloc_fail m i hg]
      exact ⟨[], rfl, fun a ha => absurd ha (List.not_mem_nil a)⟩

/-! ## The claim on bounds -/

/-- C17, bounds safety: for every bitset whose `size_bytes` is within the byte capacity
and every index `i`, the bounds-checked `sb_test`, `sb_reset` and `sb_set` never take the
out-of-bounds branch and return what the plain functions return; `sb_test` and
`sb_reset` access byte `i / 8` only, and only when `i / 8 < size_bytes`; `sb_set`, for
every answer of the allocator, zero-fills only offsets in `[old size_bytes, i / 8 + 1)`
and reads or writes only byte `i / 8`; every offset accessed is below the byte capacity
of the buffer. -/
theorem C17_bounds_safety (b : Option srt_bitset) (i : Nat)
    (hw : size_bytes b ≤ sv_capacity b) :
    (∃ tr, sb_test_chk b i = some (sb_test b i, tr) ∧
      ∀ a ∈ tr, a = sb_access.rd (i / 8) ∧ i / 8 < size_bytes b ∧ i / 8 < sv_capacity b) ∧
    (∃ tr, sb_reset_chk b i = some (sb_reset b i, tr) ∧
      ∀ a ∈ tr, sb_access.off a = i / 8 ∧ i / 8 < size_bytes b ∧ i / 8 < sv_capacity b) ∧
    (∀ m, ∃ tr, sb_set_chk m b i = some (sb_set m b i, tr) ∧
      ∀ a ∈ tr, sb_access.off a < sv_capacity (sb_set m b i) ∧
        sb_set_access_ok (size_bytes b) i a) :=
  ⟨sb_test_chk_eq b i hw, sb_reset_chk_eq b i hw, fun m => sb_set_chk_eq m b i hw⟩

/-- Witness of C17: bit 200 set on the scenario bitset (13 bytes), which grows the
buffer to 26 bytes. -/
theorem C17_bounds_safety_witness :
    size_bytes scenario ≤ sv_capacity scenario ∧
    ∃ tr, sb_set_chk mem_ff scenario 200 = some (sb_set mem_ff scenario 200, tr) ∧
      ∀ a ∈ tr, sb_access.off a < sv_capacity (sb_set mem_ff scenario 200) ∧
        sb_set_access_ok (size_bytes scenario) 200 a :=
  ⟨by decide, (C17_bounds_safety scenario 200 (by decide)).2.2 mem_ff⟩

end Sbitset
